import Mathlib

/-! Verification of the hierarchical data-structure library: plain binary search
tree (`simple_bst.c`), AVL tree (`avl_bst.c`), red-black tree (`rb_bst.c`) and
array-backed binary max-heap (`heap.c`).  Each C function is embedded as a pure
Lean function over an inductive tree type (pointers become constructors, in-place
mutation becomes node rebuilding, `assert` failures become `Option.none`). -/

set_option maxHeartbeats 1000000

/-! ## Plain binary search tree (`src/solutions/Grimaud_BST/src/simple_bst.c`) -/

namespace SBST

/-- Node of `simple_bst.c`: value plus left/right children; `nil` is the NULL tree. -/
inductive Tree where
  | nil : Tree
  | node (value : Int) (left right : Tree) : Tree
deriving DecidableEq, Repr

/-- `binary_tree_height` (simple_bst.c line 42): recursively computed, −1 when empty. -/
def binary_tree_height : Tree → Int
  | .nil => -1
  | .node _ l r => (max (binary_tree_height l) (binary_tree_height r)) + 1

/-- `binary_tree_nodes` (line 61). -/
def binary_tree_nodes : Tree → Int
  | .nil => 0
  | .node _ l r => binary_tree_nodes l + binary_tree_nodes r + 1

/-- `min_value_node` (line 135); the C function asserts the argument is non-NULL,
so the `nil` case (which is never reached through `remove_node`) yields `none`. -/
def min_value_node : Tree → Option Int
  | .nil => none
  | .node v l _ =>
    match l with
    | .nil => some v
    | .node lv ll lr => min_value_node (.node lv ll lr)

/-- Total wrapper of `min_value_node` used where the C caller has already
established the subtree is non-empty (the default 0 is never exposed). -/
def min_value (t : Tree) : Int := (min_value_node t).getD 0

/-- `add_node` (line 153): BST insertion, duplicates are returned unchanged. -/
def add_node (v : Int) : Tree → Tree
  | .nil => .node v .nil .nil
  | .node x l r =>
    if x = v then .node x l r
    else if x > v then .node x (add_node v l) r
    else .node x l (add_node v r)

/-- `find_node` (line 182): boolean BST search. -/
def find_node (v : Int) : Tree → Bool
  | .nil => false
  | .node x l r =>
    if x = v then true
    else if x < v then find_node v r
    else find_node v l

/-- `dump_tree` (line 203): the sequence of printed values, in-order when
`ascending`, reverse in-order otherwise. -/
def dump_tree (ascending : Bool) : Tree → List Int
  | .nil => []
  | .node x l r =>
    if ascending then dump_tree ascending l ++ [x] ++ dump_tree ascending r
    else dump_tree ascending r ++ [x] ++ dump_tree ascending l

/-- `remove_node` (line 236): BST deletion with in-order-successor promotion. -/
def remove_node (v : Int) : Tree → Tree
  | .nil => .nil
  | .node x l r =>
    if v < x then .node x (remove_node v l) r
    else if v > x then .node x l (remove_node v r)
    else
      match l, r with
      | .nil, _ => r
      | _, .nil => l
      | _, _ =>
        let m := min_value r
        .node m l (remove_node m r)

/-- State-passing embedding of `find_node`: the C function only reads through the
pointer it is given; here each traversal step hands back the (sub)tree it
inspected, so the second component is the tree as the caller sees it afterwards. -/
def find_node_st (v : Int) : Tree → Bool × Tree
  | .nil => (false, .nil)
  | .node x l r =>
    if x = v then (true, .node x l r)
    else if x < v then
      let p := find_node_st v r
      (p.1, .node x l p.2)
    else
      let p := find_node_st v l
      (p.1, .node x p.2 r)

/-- Membership: the value occurs somewhere in the (not necessarily ordered) tree. -/
def tmem (v : Int) : Tree → Bool
  | .nil => false
  | .node x l r => (x = v) || tmem v l || tmem v r

/-- Every value in the tree satisfies `p`. -/
def all_tree (p : Int → Bool) : Tree → Bool
  | .nil => true
  | .node x l r => p x && all_tree p l && all_tree p r

/-- The BST ordering invariant maintained by the program. -/
def is_bst : Tree → Bool
  | .nil => true
  | .node x l r =>
    all_tree (fun y => decide (y < x)) l && all_tree (fun y => decide (x < y)) r &&
      is_bst l && is_bst r

end SBST

/-! ## AVL tree (`src/solutions/Grimaud_BST/src/avl_bst.c`) -/

namespace AVL

/-- Node of `avl_bst.c`: value, the stored `height` field, and children. -/
inductive Tree where
  | nil : Tree
  | node (value : Int) (height : Int) (left right : Tree) : Tree
deriving DecidableEq, Repr

/-- `binary_tree_height` (avl_bst.c line 56): −1 for NULL, otherwise the
stored `height` field. -/
def binary_tree_height : Tree → Int
  | .nil => -1
  | .node _ h _ _ => h

/-- `binary_tree_nodes` (line 71). -/
def binary_tree_nodes : Tree → Int
  | .nil => 0
  | .node _ _ l r => binary_tree_nodes l + binary_tree_nodes r + 1

/-- `min_value_node` (line 145); `none` models the assertion on a NULL argument. -/
def min_value_node : Tree → Option Int
  | .nil => none
  | .node v _ l _ =>
    match l with
    | .nil => some v
    | .node lv lh ll lr => min_value_node (.node lv lh ll lr)

/-- Total wrapper of `min_value_node` for call sites that guarantee non-emptiness. -/
def min_value (t : Tree) : Int := (min_value_node t).getD 0

/-- `bst_rotate_left` (line 162): NULL or no right child is a no-op; otherwise
relink and recompute the two affected heights from the (stored) children heights,
first the node that becomes the child, then the new parent. -/
def bst_rotate_left : Tree → Tree
  | .nil => .nil
  | .node x h l .nil => .node x h l .nil
  | .node x _ l (.node rx _ rl rr) =>
    let lh := binary_tree_height l
    let rlh := binary_tree_height rl
    let rrh := binary_tree_height rr
    .node rx (1 + max (1 + max lh rlh) rrh) (.node x (1 + max lh rlh) l rl) rr

/-- `bst_rotate_right` (line 187), mirror of `bst_rotate_left`. -/
def bst_rotate_right : Tree → Tree
  | .nil => .nil
  | .node x h .nil r => .node x h .nil r
  | .node x _ (.node lx _ ll lr) r =>
    let rh := binary_tree_height r
    let llh := binary_tree_height ll
    let lrh := binary_tree_height lr
    .node lx (1 + max llh (1 + max lrh rh)) ll (.node x (1 + max lrh rh) lr r)

/-- `find_node` (line 212), identical code to the plain BST version. -/
def find_node (v : Int) : Tree → Bool
  | .nil => false
  | .node x _ l r =>
    if x = v then true
    else if x < v then find_node v r
    else find_node v l

/-- State-passing embedding of the AVL `find_node` (see `SBST.find_node_st`):
the second component is the tree handed back to the caller, including every
height field the traversal passed over. -/
def find_node_st (v : Int) : Tree → Bool × Tree
  | .nil => (false, .nil)
  | .node x h l r =>
    if x = v then (true, .node x h l r)
    else if x < v then
      let p := find_node_st v r
      (p.1, .node x h l p.2)
    else
      let p := find_node_st v l
      (p.1, .node x h p.2 r)

/-- `dump_tree` (line 233) as the list of printed values. -/
def dump_tree (ascending : Bool) : Tree → List Int
  | .nil => []
  | .node x _ l r =>
    if ascending then dump_tree ascending l ++ [x] ++ dump_tree ascending r
    else dump_tree ascending r ++ [x] ++ dump_tree ascending l

/-- The balance/rotate block that `add_node` (lines 281-302) runs after the
recursive insertion of `value`: recompute the stored height, then rotate if the
balance factor leaves [−1, 1], the zig-zag cases being detected by comparing the
inserted value with the child's value. -/
def add_fix (v : Int) : Tree → Tree
  | .nil => .nil
  | .node x _ l r =>
    let lh := binary_tree_height l
    let rh := binary_tree_height r
    if lh - rh > 1 then
      let l2 := match l with
        | .nil => Tree.nil
        | .node lx lh2 ll lr =>
          if v > lx then bst_rotate_left (.node lx lh2 ll lr) else .node lx lh2 ll lr
      bst_rotate_right (.node x (1 + max lh rh) l2 r)
    else if rh - lh > 1 then
      let r2 := match r with
        | .nil => Tree.nil
        | .node rx rh2 rl rr =>
          if v < rx then bst_rotate_right (.node rx rh2 rl rr) else .node rx rh2 rl rr
      bst_rotate_left (.node x (1 + max lh rh) l r2)
    else .node x (1 + max lh rh) l r

/-- `add_node` (line 265): BST insertion (new leaves get height 0, duplicates
leave the subtree alone) followed by the fall-through rebalance block. -/
def add_node (v : Int) : Tree → Tree
  | .nil => add_fix v (.node v 0 .nil .nil)
  | .node x h l r =>
    if v < x then add_fix v (.node x h (add_node v l) r)
    else if v > x then add_fix v (.node x h l (add_node v r))
    else add_fix v (.node x h l r)

/-- The Step-2 rebalance block of `remove_node` (lines 347-373): recompute the
stored height, then the 4-case rebalance whose tie-break compares the stored
heights of the grandchildren. -/
def remove_fix : Tree → Tree
  | .nil => .nil
  | .node x _ l r =>
    let lh := binary_tree_height l
    let rh := binary_tree_height r
    if lh - rh > 1 then
      if (match l with
          | .nil => false
          | .node _ _ ll lr => decide (binary_tree_height ll ≥ binary_tree_height lr)) then
        bst_rotate_right (.node x (1 + max lh rh) l r)
      else
        bst_rotate_right (.node x (1 + max lh rh) (bst_rotate_left l) r)
    else if rh - lh > 1 then
      if (match r with
          | .nil => false
          | .node _ _ rl rr => decide (binary_tree_height rr ≥ binary_tree_height rl)) then
        bst_rotate_left (.node x (1 + max lh rh) l r)
      else
        bst_rotate_left (.node x (1 + max lh rh) l (bst_rotate_right r))
    else .node x (1 + max lh rh) l r

/-- `remove_node` (line 319): standard BST delete (splice a single child, or
promote the minimum of the right subtree and delete it there), then Step 2. -/
def remove_node (v : Int) : Tree → Tree
  | .nil => .nil
  | .node x h l r =>
    if v < x then remove_fix (.node x h (remove_node v l) r)
    else if v > x then remove_fix (.node x h l (remove_node v r))
    else
      match l, r with
      | .nil, _ => remove_fix r
      | _, .nil => remove_fix l
      | _, _ =>
        let m := min_value r
        remove_fix (.node m h l (remove_node m r))

/-- Number of nodes as a natural number (termination measure for claim C5). -/
def size : Tree → Nat
  | .nil => 0
  | .node _ _ l r => size l + size r + 1

/-- Fuel-indexed variant of `remove_node`: each recursive call consumes one unit
of fuel and `none` reports fuel exhaustion.  Claim C5 is settled by proving that
`size t` fuel always suffices, i.e. the recursion is well-founded because every
recursive call (in particular the deletion of the promoted minimum, which runs
on the right subtree) works on a strictly smaller tree. -/
def remove_node_fuel : Nat → Int → Tree → Option Tree
  | 0, _, _ => none
  | _ + 1, _, .nil => some .nil
  | n + 1, v, .node x h l r =>
    if v < x then (remove_node_fuel n v l).map (fun l2 => remove_fix (.node x h l2 r))
    else if v > x then (remove_node_fuel n v r).map (fun r2 => remove_fix (.node x h l r2))
    else
      match l, r with
      | .nil, _ => some (remove_fix r)
      | _, .nil => some (remove_fix l)
      | _, _ =>
        let m := min_value r
        (remove_node_fuel n m r).map (fun r2 => remove_fix (.node m h l r2))

/-- The recursively-defined height of the invariant (empty subtree = −1),
independent of the stored `height` fields. -/
def rheight : Tree → Int
  | .nil => -1
  | .node _ _ l r => 1 + max (rheight l) (rheight r)

/-- The AVL invariant of the spec: at every node the stored height equals the
recursively-defined height and the two children heights differ by at most 1. -/
def avl_ok : Tree → Bool
  | .nil => true
  | .node _ h l r =>
    decide (h = 1 + max (rheight l) (rheight r)) &&
    decide (rheight l - rheight r ≤ 1) &&
    decide (rheight r - rheight l ≤ 1) &&
    avl_ok l && avl_ok r

/-- Membership anywhere in the tree. -/
def tmem (v : Int) : Tree → Bool
  | .nil => false
  | .node x _ l r => (x = v) || tmem v l || tmem v r

/-- Every value in the tree satisfies `p`. -/
def all_tree (p : Int → Bool) : Tree → Bool
  | .nil => true
  | .node x _ l r => p x && all_tree p l && all_tree p r

/-- The BST ordering invariant. -/
def is_bst : Tree → Bool
  | .nil => true
  | .node x _ l r =>
    all_tree (fun y => decide (y < x)) l && all_tree (fun y => decide (x < y)) r &&
      is_bst l && is_bst r

end AVL

/-! ## Red-black tree (`src/exercices/Nom_BST/src/rb_bst.c`)

The exercise file implements `fix_red_black`, `add_node_rec`, `add_node`,
`find_parent` and `remove_node`, but its two rotation primitives are `TODO`
placeholders (`return NULL;`, lines 174-192); the repository carries no solution
file for them.  The rotations are therefore modelled from the spec (§4.1) and
every result about this variant is flagged `spec-modelled`. -/

namespace RB

/-- `node_color_e` (rb_bst.c line 28). -/
inductive Color where
  | red : Color
  | black : Color
deriving DecidableEq, Repr

/-- Node of `rb_bst.c`: value, children and the color tag, in source order. -/
inductive Tree where
  | nil : Tree
  | node (value : Int) (left right : Tree) (color : Color) : Tree
deriving DecidableEq, Repr

/-- The `value` field, guarded by non-NULLness at every C use site. -/
def value : Tree → Int
  | .nil => 0
  | .node x _ _ _ => x

/-- The `left` field (NULL for the empty tree). -/
def left : Tree → Tree
  | .nil => .nil
  | .node _ l _ _ => l

/-- The `right` field (NULL for the empty tree). -/
def right : Tree → Tree
  | .nil => .nil
  | .node _ _ r _ => r

/-- The C guard pattern `t != NULL && t->color == RED`. -/
def is_red : Tree → Bool
  | .node _ _ _ .red => true
  | _ => false

/-- In-place recoloring of a node's root to BLACK (`t->color = BLACK`). -/
def set_black : Tree → Tree
  | .nil => .nil
  | .node x l r _ => .node x l r .black

/-- Modelled from the spec: `bst_rotate_left` of rb_bst.c is a TODO placeholder;
§4.1 specifies new subtree root = old right child, old root becomes its left
child, the old right child's left subtree becomes the old root's right child;
purely structural (no color change), and a no-op without a right child. -/
def bst_rotate_left : Tree → Tree
  | .nil => .nil
  | .node x l .nil c => .node x l .nil c
  | .node x l (.node rx rl rr rc) c => .node rx (.node x l rl c) rr rc

/-- Modelled from the spec: `bst_rotate_right` of rb_bst.c is a TODO placeholder;
mirror image of `bst_rotate_left` (§4.1). -/
def bst_rotate_right : Tree → Tree
  | .nil => .nil
  | .node x .nil r c => .node x .nil r c
  | .node x (.node lx ll lr lc) r c => .node lx ll (.node x lr r c) lc

/-- `min_value_node` (line 157); `none` models the assertion on NULL. -/
def min_value_node : Tree → Option Int
  | .nil => none
  | .node v l _ _ =>
    match l with
    | .nil => some v
    | .node lv ll lr lc => min_value_node (.node lv ll lr lc)

/-- Total wrapper of `min_value_node` for guarded call sites. -/
def min_value (t : Tree) : Int := (min_value_node t).getD 0

/-- `fix_red_black` (line 214): the four red-child/red-grandchild repair
patterns, checked in source order; the first match recolors and rotates, no
match returns the subtree unchanged.  (The C function is only called with a
non-NULL root; `nil` maps to `nil`.) -/
def fix_red_black : Tree → Tree
  | .nil => .nil
  | .node x l r c =>
    if is_red l && is_red (left l) then
      bst_rotate_right (.node x (.node (value l) (set_black (left l)) (right l) .red) r c)
    else if is_red l && is_red (right l) then
      bst_rotate_right (.node x (bst_rotate_left (set_black l)) r c)
    else if is_red r && is_red (right r) then
      bst_rotate_left (.node x l (.node (value r) (left r) (set_black (right r)) .red) c)
    else if is_red r && is_red (left r) then
      bst_rotate_left (.node x l (bst_rotate_right (set_black r)) c)
    else .node x l r c

/-- `add_node_rec` (line 256): BST descent, new nodes are RED, each unwind step
applies `fix_red_black`; an equal value returns the subtree unchanged. -/
def add_node_rec (v : Int) : Tree → Tree
  | .nil => .node v .nil .nil .red
  | .node x l r c =>
    if v < x then fix_red_black (.node x (add_node_rec v l) r c)
    else if v > x then fix_red_black (.node x l (add_node_rec v r) c)
    else .node x l r c

/-- `add_node` (line 293): insert recursively, then force the root BLACK. -/
def add_node (v : Int) (root : Tree) : Tree :=
  set_black (add_node_rec v root)

/-- `find_parent` (line 336): returns the parent of the node carrying `v`, or
NULL when the tree is empty, the root is childless, or no parent exists —
in particular it returns NULL when `v` equals the value of the node it is
called on (the final fall-through, line 358). -/
def find_parent (v : Int) (t : Tree) : Option Tree :=
  match t with
  | .nil => none
  | .node x l r c =>
    if l = .nil ∧ r = .nil then none
    else if (l ≠ .nil ∧ value l = v) ∨ (r ≠ .nil ∧ value r = v) then some (.node x l r c)
    else if v < x then find_parent v l
    else if v > x then find_parent v r
    else none

/-- Value-level rendering of the sibling-repair branch of `remove_node`
(lines 476-524, cases 3.1-3.3).  In the C source the `parent` returned by
`find_parent` would alias a strict descendant of `root`, so the pointer
comparison `parent->left == root` is rendered as structural equality and the
color mutations act on the local `parent` value.  The branch is unreachable:
`find_parent` is called with the value of `root` itself and always returns NULL
on a BST (theorem `claim_C3` below), which is why the C aliasing cannot be
observed. -/
def case3_repair (parent root : Tree) : Tree :=
  let sibling := if left parent = root then right parent else left parent
  if sibling = .nil then root
  else if is_red sibling then
    let parent2 :=
      if left parent = root then Tree.node (value parent) root (set_black sibling) .red
      else Tree.node (value parent) (set_black sibling) root .red
    if right parent = sibling then bst_rotate_left parent2 else bst_rotate_right parent2
  else if !is_red (left sibling) && !is_red (right sibling) then
    root
  else
    let step1 := if is_red (left sibling) then bst_rotate_right (set_black sibling) else sibling
    if is_red (right step1) then
      let parent3 :=
        if left parent = root then Tree.node (value parent) root (set_black step1) .black
        else Tree.node (value parent) (set_black step1) root .black
      bst_rotate_left parent3
    else root

/-- `remove_node` (line 391): color-directed deletion.  The duplicated second
"Case 2.3" block of the source (lines 461-472) is unreachable (its guard is
identical to the block just above, which returns) and is not repeated here. -/
def remove_node (v : Int) : Tree → Tree
  | .nil => .nil
  | .node x l r c =>
    if v < x then .node x (remove_node v l) r c
    else if v > x then .node x l (remove_node v r) c
    else
      match c with
      | .red =>
        match l, r with
        | .nil, .nil => .nil
        | .nil, _ => r
        | _, .nil => l
        | _, _ =>
          let m := min_value r
          .node m l (remove_node m r) .red
      | .black =>
        if is_red r ∧ l = .nil then set_black r
        else if is_red l ∧ r = .nil then set_black l
        else if is_red l ∧ is_red r then
          let m := min_value r
          .node m l (remove_node m r) .black
        else
          match find_parent v (.node x l r .black) with
          | some parent => case3_repair parent (.node x l r .black)
          | none =>
            match r with
            | .nil => .nil
            | _ =>
              let m := min_value r
              .node m l (remove_node m r) .black

/-- Membership anywhere in the tree. -/
def tmem (v : Int) : Tree → Bool
  | .nil => false
  | .node x l r _ => (x = v) || tmem v l || tmem v r

/-- Every value in the tree satisfies `p`. -/
def all_tree (p : Int → Bool) : Tree → Bool
  | .nil => true
  | .node x l r _ => p x && all_tree p l && all_tree p r

/-- The BST ordering invariant. -/
def is_bst : Tree → Bool
  | .nil => true
  | .node x l r _ =>
    all_tree (fun y => decide (y < x)) l && all_tree (fun y => decide (x < y)) r &&
      is_bst l && is_bst r

/-- Red-black color invariant (a): a red node has no red child. -/
def no_red_red : Tree → Bool
  | .nil => true
  | .node _ l r c =>
    (match c with
     | .red => !is_red l && !is_red r
     | .black => true) && no_red_red l && no_red_red r

/-- Spec invariant (b): every path from the root to an empty-subtree position
crosses exactly `n` black nodes. -/
inductive BlackHeight : Tree → Nat → Prop where
  | nil : BlackHeight .nil 0
  | red {l r : Tree} {v : Int} {n : Nat} :
      BlackHeight l n → BlackHeight r n → BlackHeight (.node v l r .red) n
  | black {l r : Tree} {v : Int} {n : Nat} :
      BlackHeight l n → BlackHeight r n → BlackHeight (.node v l r .black) (n + 1)

/-- Full red-black validity: no red-red edge, uniform black count on all paths
to empty positions, black (or absent) root. -/
def valid_rb (t : Tree) : Prop :=
  no_red_red t = true ∧ (∃ n, BlackHeight t n) ∧ is_red t = false

end RB

/-! ## Binary max-heap (`src/solutions/Grimaud_BST/src/heap.c`)

The backing array is modelled as a total function `Int → Int` (the C array with
unchecked indices) together with the `nb_elements` counter kept as a C `int`.
`assert` failures are modelled as `Option.none`; `heap_remove` performs no
emptiness assertion in the source (only `assert(heap != NULL)`), so it is a
total function. -/

namespace Heap

/-- `HEAP_MAX_SIZE` (heap.c line 18). -/
def heap_max_size : Int := 1000

/-- `heap_s` (line 30): the array contents and the number of used slots. -/
structure HeapS where
  arr : Int → Int
  nb : Int

/-- Pointwise array store `a[i] = x`. -/
def upd (a : Int → Int) (i x : Int) : Int → Int :=
  fun j => if j = i then x else a j

/-- `swap` (line 20) of the two cells `i` and `j`. -/
def swap (a : Int → Int) (i j : Int) : Int → Int :=
  upd (upd a i (a j)) j (a i)

/-- `heap_create` (line 39): zero used slots (array cells unspecified, fixed to 0). -/
def heap_create : HeapS := { arr := fun _ => 0, nb := 0 }

/-- The sift-up loop of `heap_add` (lines 59-62): while the cell exceeds its
parent, swap them and climb. -/
def sift_up (a : Int → Int) (i : Int) : Int → Int :=
  if h : 0 < i ∧ a i > a ((i - 1) / 2) then
    sift_up (swap a i ((i - 1) / 2)) ((i - 1) / 2)
  else a
termination_by i.toNat
decreasing_by
  obtain ⟨h1, _⟩ := h
  omega

/-- `heap_add` (line 53): the capacity assertion (`nb_elements < HEAP_MAX_SIZE`)
aborts (`none`) on a full heap; otherwise append at the next free slot and sift up. -/
def heap_add (v : Int) (h : HeapS) : Option HeapS :=
  if h.nb < heap_max_size then
    some { arr := sift_up (upd h.arr h.nb v) h.nb, nb := h.nb + 1 }
  else none

/-- `heap_empty` (line 72). -/
def heap_empty (h : HeapS) : Bool := h.nb = 0

/-- `heap_peek` (line 83): asserts non-emptiness (`none` on the empty heap),
otherwise reads slot 0 without mutation. -/
def heap_peek (h : HeapS) : Option Int :=
  if heap_empty h then none else some (h.arr 0)

/-- The sift-down loop of `heap_remove` (lines 99-111): compare with both
children below `n`, swap with the larger child when it exceeds the current cell.
The loop starts at index 0 and only ever moves to a child index, so the moving
index is a natural number. -/
def sift_down (a : Int → Int) (n : Int) (i : Nat) : Int → Int :=
  if h : (i : Int) < n then
    let li : Nat := i * 2 + 1
    let ri : Nat := i * 2 + 2
    let g0 : Nat := if (li : Int) < n ∧ a li > a i then li else i
    let g1 : Nat := if (ri : Int) < n ∧ a ri > a g0 then ri else g0
    if hg : g1 = i then a
    else sift_down (swap a i g1) n g1
  else a
termination_by (n - i).toNat
decreasing_by
  simp only [g1, g0] at hg ⊢
  split_ifs at hg ⊢ <;> omega

/-- `heap_remove` (line 94): asserts only `heap != NULL`; overwrite slot 0 with
the last used slot, decrement `nb_elements` (to −1 on an empty heap) and sift
down from the root.  No emptiness assertion is performed by the source. -/
def heap_remove (h : HeapS) : HeapS :=
  let a := upd h.arr 0 (h.arr (h.nb - 1))
  let n := h.nb - 1
  { arr := sift_down a n 0, nb := n }

/-- The multiset of the used slots `array[0..nb)`. -/
def contents (h : HeapS) : Multiset Int :=
  ((List.range h.nb.toNat).map (fun i : Nat => h.arr i) : Multiset Int)

/-- The heap invariant (spec §3): every occupied non-root index is dominated by
its parent, and the counter stays within `[0, HEAP_MAX_SIZE]`. -/
def heap_prop (h : HeapS) : Prop :=
  0 ≤ h.nb ∧ h.nb ≤ heap_max_size ∧
    ∀ k : Int, 0 < k → k < h.nb → h.arr ((k - 1) / 2) ≥ h.arr k

/-- One driver operation on the heap. -/
inductive HOp where
  | add (v : Int) : HOp
  | remove : HOp
deriving DecidableEq, Repr

/-- Run a sequence of operations from a given heap; `none` flags a sequence
that leaves the legal range (adding past capacity or removing from empty). -/
def run : List HOp → HeapS → Option HeapS
  | [], h => some h
  | .add v :: ops, h => (heap_add v h).bind (run ops)
  | .remove :: ops, h => if 0 < h.nb then run ops (heap_remove h) else none

/-- The specification ledger of "elements added and not yet removed": `add`
pushes the value, `remove` erases one copy of the maximum. -/
def ledger : List HOp → List Int → Option (List Int)
  | [], acc => some acc
  | .add v :: ops, acc =>
    if (acc.length : Int) < heap_max_size then ledger ops (v :: acc) else none
  | .remove :: ops, acc =>
    match acc.max? with
    | none => none
    | some m => ledger ops (acc.erase m)

end Heap

/-! ## Basic lemmas -/

namespace SBST

theorem add_node_of_found {v : Int} : ∀ {t : Tree}, find_node v t = true → add_node v t = t := by
  intro t h
  induction t with
  | nil => simp [find_node] at h
  | node x l r ihl ihr =>
    by_cases hxv : x = v
    · simp [add_node, hxv]
    · by_cases hlt : x < v
      · have hr : find_node v r = true := by simpa [find_node, hxv, hlt] using h
        have : ¬ x > v := by omega
        simp [add_node, hxv, this, ihr hr]
      · have hl : find_node v l = true := by simpa [find_node, hxv, hlt] using h
        have : x > v := by omega
        simp [add_node, hxv, this, ihl hl]

theorem remove_node_of_not_found {v : Int} :
    ∀ {t : Tree}, find_node v t = false → remove_node v t = t := by
  intro t h
  induction t with
  | nil => simp [remove_node]
  | node x l r ihl ihr =>
    by_cases hxv : x = v
    · simp [find_node, hxv] at h
    · by_cases hlt : x < v
      · have hr : find_node v r = false := by simpa [find_node, hxv, hlt] using h
        have h1 : ¬ v < x := by omega
        have h2 : v > x := by omega
        simp [remove_node, h1, h2, ihr hr]
      · have hl : find_node v l = false := by simpa [find_node, hxv, hlt] using h
        have h1 : v < x := by omega
        simp [remove_node, h1, ihl hl]

end SBST

namespace RB

theorem all_tree_root {p : Int → Bool} : ∀ {t : Tree}, t ≠ .nil → all_tree p t = true →
    p (value t) = true := by
  intro t hne h
  cases t with
  | nil => exact absurd rfl hne
  | node x l r c => simp [all_tree] at h; simpa [value] using h.1.1

theorem find_parent_self {v : Int} {l r : Tree} {c : Color}
    (hbst : is_bst (.node v l r c) = true) : find_parent v (.node v l r c) = none := by
  have hb := hbst
  simp only [is_bst, Bool.and_eq_true] at hb
  obtain ⟨⟨⟨hal, har⟩, _⟩, _⟩ := hb
  by_cases hnil : l = Tree.nil ∧ r = Tree.nil
  · simp [find_parent, hnil]
  · have hchild : ¬ ((l ≠ .nil ∧ value l = v) ∨ (r ≠ .nil ∧ value r = v)) := by
      rintro (⟨hne, hv⟩ | ⟨hne, hv⟩)
      · have := all_tree_root hne hal
        simp [hv] at this
      · have := all_tree_root hne har
        simp [hv] at this
    simp [find_parent, hnil, hchild]

end RB

/-! ## Claim C4: speculative rotations degrade gracefully -/

/-- C4: for every tree variant (the AVL `avl_bst.c` rotations, and the rb_bst.c
rotations modelled from the spec), `bst_rotate_left` on the empty tree or on a
node without a right child returns its input unchanged, and symmetrically
`bst_rotate_right` on the empty tree or on a node without a left child returns
its input unchanged. -/
theorem claim_C4 :
    AVL.bst_rotate_left .nil = .nil ∧
    (∀ (x h : Int) (l : AVL.Tree), AVL.bst_rotate_left (.node x h l .nil) = .node x h l .nil) ∧
    AVL.bst_rotate_right .nil = .nil ∧
    (∀ (x h : Int) (r : AVL.Tree), AVL.bst_rotate_right (.node x h .nil r) = .node x h .nil r) ∧
    RB.bst_rotate_left .nil = .nil ∧
    (∀ (x : Int) (l : RB.Tree) (c : RB.Color),
      RB.bst_rotate_left (.node x l .nil c) = .node x l .nil c) ∧
    RB.bst_rotate_right .nil = .nil ∧
    (∀ (x : Int) (r : RB.Tree) (c : RB.Color),
      RB.bst_rotate_right (.node x .nil r c) = .node x .nil r c) :=
  ⟨rfl, fun _ _ _ => rfl, rfl, fun _ _ _ => rfl, rfl, fun _ _ _ => rfl, rfl, fun _ _ _ => rfl⟩

/-! ## Claim C10: `find_node` is read-only -/

/-- C10: in the state-passing embeddings of both `find_node` variants the tree
handed back to the caller is exactly the input tree — structure, values and (for
the AVL variant) stored height fields included — and the boolean agrees with the
direct embedding. -/
theorem claim_C10 (v : Int) :
    (∀ t : SBST.Tree, SBST.find_node_st v t = (SBST.find_node v t, t)) ∧
    (∀ t : AVL.Tree, AVL.find_node_st v t = (AVL.find_node v t, t)) := by
  constructor
  · intro t
    induction t with
    | nil => rfl
    | node x l r ihl ihr =>
      by_cases h1 : x = v
      · simp [SBST.find_node_st, SBST.find_node, h1]
      · by_cases h2 : x < v <;>
          simp [SBST.find_node_st, SBST.find_node, h1, h2, ihl, ihr]
  · intro t
    induction t with
    | nil => rfl
    | node x h l r ihl ihr =>
      by_cases h1 : x = v
      · simp [AVL.find_node_st, AVL.find_node, h1]
      · by_cases h2 : x < v <;>
          simp [AVL.find_node_st, AVL.find_node, h1, h2, ihl, ihr]

/-! ## Claim C9: duplicate insert and absent delete are silent no-ops -/

/-- C9: for the plain BST, inserting a value the search finds returns the input
handle unchanged, and deleting a value the search does not find returns the
input handle unchanged, so `node_count` and the traversal sequence are
unchanged as well. -/
theorem claim_C9 (v : Int) (t : SBST.Tree) (ascending : Bool) :
    (SBST.find_node v t = true → SBST.add_node v t = t) ∧
    (SBST.find_node v t = false →
      SBST.remove_node v t = t ∧
      SBST.binary_tree_nodes (SBST.remove_node v t) = SBST.binary_tree_nodes t ∧
      SBST.dump_tree ascending (SBST.remove_node v t) = SBST.dump_tree ascending t) := by
  refine ⟨SBST.add_node_of_found, fun h => ?_⟩
  have he := SBST.remove_node_of_not_found h
  exact ⟨he, by rw [he], by rw [he]⟩

/-- Witness for C9 at concrete inputs: inserting the present value 2 and
deleting the absent value 3 both leave the one-node tree untouched. -/
theorem claim_C9_witness :
    SBST.add_node 2 (.node 2 .nil .nil) = .node 2 .nil .nil ∧
    SBST.remove_node 3 (.node 2 .nil .nil) = .node 2 .nil .nil :=
  ⟨(claim_C9 2 (.node 2 .nil .nil) true).1 (by decide),
   ((claim_C9 3 (.node 2 .nil .nil) true).2 (by decide)).1⟩

/-! ## Claim C8: heap precondition violations -/

/-- C8 evaluation: `heap_peek` on the empty heap aborts (`none`) and `heap_add`
on a heap holding `HEAP_MAX_SIZE = 1000` elements aborts (`none`), as the claim
states; but `heap_remove` on the empty heap does **not** abort: the source only
asserts `heap != NULL`, so it returns normally with `nb_elements = −1`
(after reading `array[-1]`), contradicting both the claim and the function's
own doc comment ("Asserts that the heap is not empty"). -/
theorem claim_C8 :
    Heap.heap_peek Heap.heap_create = none ∧
    Heap.heap_add 5 { arr := fun _ => 0, nb := 1000 } = none ∧
    (Heap.heap_remove Heap.heap_create).nb = -1 := by
  refine ⟨rfl, ?_, rfl⟩
  simp [Heap.heap_add, Heap.heap_max_size]

/-! ## Claim C3: the sibling-recoloring branch of red-black deletion -/

/-- C3 counterexample: deleting the BLACK childless node 1 from the valid
red-black tree `2B (1B, 3B)` must — per the claim — locate parent 2 and sibling
3 and recolor the sibling RED; the code instead finds no parent (`find_parent`
re-descends from the node being deleted itself) and returns a tree whose
sibling node 3 is still BLACK. -/
theorem claim_C3_counterexample :
    RB.remove_node 1
        (.node 2 (.node 1 .nil .nil .black) (.node 3 .nil .nil .black) .black) =
      .node 2 .nil (.node 3 .nil .nil .black) .black ∧
    RB.is_red
      (RB.right (RB.remove_node 1
        (.node 2 (.node 1 .nil .nil .black) (.node 3 .nil .nil .black) .black))) = false := by
  constructor <;> rfl

/-- C3 amended: when red-black `remove_node` reaches a BLACK node carrying the
searched value whose children are absent or black (and not both red), it calls
`find_parent` from that very node; on a BST-ordered subtree this lookup always
returns NULL (no parent is ever located), so the sibling case analysis — and in
particular the recoloring of the sibling to RED and of the parent to BLACK —
is unreachable, and the node is instead handled by the no-parent branch:
successor promotion when a right child exists, otherwise the subtree becomes
empty. -/
theorem claim_C3 (v : Int) (l r : RB.Tree)
    (hbst : RB.is_bst (.node v l r .black) = true)
    (hl : RB.is_red l = false) (hr : RB.is_red r = false) :
    RB.find_parent v (.node v l r .black) = none ∧
    RB.remove_node v (.node v l r .black) =
      (match r with
       | .nil => .nil
       | .node rx rl rr rc =>
         .node (RB.min_value (.node rx rl rr rc)) l
           (RB.remove_node (RB.min_value (.node rx rl rr rc)) (.node rx rl rr rc)) .black) := by
  have hfp := RB.find_parent_self hbst
  refine ⟨hfp, ?_⟩
  simp only [RB.remove_node, lt_irrefl, if_false, hl, hr, false_and, and_false,
    Bool.false_eq_true, hfp]
  cases r <;> simp [RB.remove_node, hl, hr, hfp]

/-- Witness for C3 at a concrete input: the tree `2B (1B, 3B)` with its own
root value 2 — no parent is located and deletion promotes the successor 3. -/
theorem claim_C3_witness :
    RB.find_parent 2
        (.node 2 (.node 1 .nil .nil .black) (.node 3 .nil .nil .black) .black) = none :=
  (claim_C3 2 (.node 1 .nil .nil .black) (.node 3 .nil .nil .black)
    (by decide) (by decide) (by decide)).1

/-! ## Claim C5: AVL deletion terminates -/

namespace AVL

theorem remove_node_fuel_spec : ∀ (n : Nat) (v : Int) (t : Tree), size t < n →
    remove_node_fuel n v t = some (remove_node v t) := by
  intro n
  induction n with
  | zero => intro v t h; omega
  | succ n ih =>
    intro v t h
    cases t with
    | nil => rfl
    | node x hh l r =>
      simp only [size] at h
      by_cases h1 : v < x
      · simp [remove_node_fuel, remove_node, h1, ih v l (by omega)]
      · by_cases h2 : v > x
        · simp [remove_node_fuel, remove_node, h1, h2, ih v r (by omega)]
        · cases l with
          | nil => simp [remove_node_fuel, remove_node, h1, h2]
          | node lx lh ll lr =>
            cases r with
            | nil => simp [remove_node_fuel, remove_node, h1, h2]
            | node rx rh rl rr =>
              have hr : size (Tree.node rx rh rl rr) < n := by
                simp only [size] at *; omega
              simp [remove_node_fuel, remove_node, h1, h2, ih _ _ hr]

end AVL

/-- C5: AVL `remove_node` terminates on every tree and value: running the
fuel-instrumented embedding with `size t + 1` units of fuel — one per recursive
call, each of which (including the deletion of the promoted minimum of the
right subtree, `remove_node_fuel n m r`) receives a strictly smaller tree —
never exhausts the fuel and computes exactly `remove_node`. -/
theorem claim_C5 (v : Int) (t : AVL.Tree) :
    AVL.remove_node_fuel (AVL.size t + 1) v t = some (AVL.remove_node v t) :=
  AVL.remove_node_fuel_spec (AVL.size t + 1) v t (by omega)

/-! ## BST machinery for the plain tree (claim C6) -/

namespace SBST

theorem all_tree_iff {p : Int → Bool} : ∀ {t : Tree},
    all_tree p t = true ↔ ∀ w, tmem w t = true → p w = true := by
  intro t
  induction t with
  | nil => simp [all_tree, tmem]
  | node x l r ihl ihr =>
    simp only [all_tree, tmem, Bool.and_eq_true, Bool.or_eq_true, decide_eq_true_eq]
    constructor
    · rintro ⟨⟨hx, hl⟩, hr⟩ w (⟨hw | hw⟩ | hw)
      · exact hw ▸ hx
      · exact ihl.1 hl w hw
      · exact ihr.1 hr w hw
    · intro h
      exact ⟨⟨h x (Or.inl (Or.inl (by simp))), ihl.2 fun w hw => h w (Or.inl (Or.inr hw))⟩,
        ihr.2 fun w hw => h w (Or.inr hw)⟩

theorem find_eq_tmem {v : Int} : ∀ {t : Tree}, is_bst t = true → find_node v t = tmem v t := by
  intro t hb
  induction t with
  | nil => rfl
  | node x l r ihl ihr =>
    simp only [is_bst, Bool.and_eq_true] at hb
    obtain ⟨⟨⟨hal, har⟩, hbl⟩, hbr⟩ := hb
    by_cases h1 : x = v
    · simp [find_node, tmem, h1]
    · by_cases h2 : x < v
      · have hnl : tmem v l = false := by
          by_contra hc
          have := all_tree_iff.1 hal v (by simpa using hc)
          simp at this; omega
        simp [find_node, tmem, h1, h2, hnl, ihr hbr]
      · have hnr : tmem v r = false := by
          by_contra hc
          have := all_tree_iff.1 har v (by simpa using hc)
          simp at this; omega
        simp [find_node, tmem, h1, h2, hnr, ihl hbl]

theorem min_value_node_isSome : ∀ (x : Int) (l r : Tree),
    (min_value_node (.node x l r)).isSome = true := by
  intro x l r
  induction l generalizing x r with
  | nil => simp [min_value_node]
  | node lx ll lr ih _ => simpa [min_value_node] using ih lx lr

theorem tmem_node {w x : Int} {l r : Tree} :
    tmem w (.node x l r) = true ↔ x = w ∨ tmem w l = true ∨ tmem w r = true := by
  simp only [tmem, Bool.or_eq_true, decide_eq_true_eq, or_assoc]

theorem tmem_node_false {w x : Int} {l r : Tree} :
    tmem w (.node x l r) = false ↔ x ≠ w ∧ tmem w l = false ∧ tmem w r = false := by
  simp only [tmem, Bool.or_eq_false_iff, decide_eq_false_iff_not, and_assoc]

theorem is_bst_node {x : Int} {l r : Tree} :
    is_bst (.node x l r) = true ↔
      all_tree (fun y => decide (y < x)) l = true ∧
      all_tree (fun y => decide (x < y)) r = true ∧
      is_bst l = true ∧ is_bst r = true := by
  simp only [is_bst, Bool.and_eq_true, and_assoc]

theorem min_value_node_mem : ∀ {t : Tree} {m : Int}, min_value_node t = some m →
    tmem m t = true := by
  intro t
  induction t with
  | nil => simp [min_value_node]
  | node x l r ihl _ =>
    intro m hm
    cases l with
    | nil =>
      simp only [min_value_node, Option.some.injEq] at hm
      exact tmem_node.2 (Or.inl hm)
    | node lx ll lr =>
      simp only [min_value_node] at hm
      exact tmem_node.2 (Or.inr (Or.inl (ihl hm)))

theorem min_value_node_le : ∀ {t : Tree} {m : Int}, is_bst t = true →
    min_value_node t = some m → ∀ w, tmem w t = true → m ≤ w := by
  intro t
  induction t with
  | nil => simp [min_value_node]
  | node x l r ihl _ =>
    intro m hb hm w hw
    obtain ⟨hal, har, hbl, hbr⟩ := is_bst_node.1 hb
    rcases tmem_node.1 hw with hw | hw | hw
    · subst hw
      cases l with
      | nil => simp only [min_value_node, Option.some.injEq] at hm; omega
      | node lx ll lr =>
        simp only [min_value_node] at hm
        have := all_tree_iff.1 hal m (min_value_node_mem hm)
        simp at this; omega
    · cases l with
      | nil => simp [tmem] at hw
      | node lx ll lr =>
        simp only [min_value_node] at hm
        exact ihl hbl hm w hw
    · have hxw : x < w := by
        have := all_tree_iff.1 har w hw
        simpa using this
      cases l with
      | nil => simp only [min_value_node, Option.some.injEq] at hm; omega
      | node lx ll lr =>
        simp only [min_value_node] at hm
        have := all_tree_iff.1 hal m (min_value_node_mem hm)
        simp at this; omega

theorem remove_node_spec {v : Int} : ∀ {t : Tree}, is_bst t = true →
    is_bst (remove_node v t) = true ∧
    (∀ w, tmem w (remove_node v t) = true → tmem w t = true) ∧
    tmem v (remove_node v t) = false := by
  intro t
  induction t generalizing v with
  | nil => simp [remove_node, tmem]
  | node x l r ihl ihr =>
    intro hb
    obtain ⟨hal, har, hbl, hbr⟩ := is_bst_node.1 hb
    have hnotl : ∀ w, tmem w l = true → w < x := fun w hw => by
      have := all_tree_iff.1 hal w hw; simpa using this
    have hnotr : ∀ w, tmem w r = true → x < w := fun w hw => by
      have := all_tree_iff.1 har w hw; simpa using this
    by_cases h1 : v < x
    · obtain ⟨ibst, isub, imem⟩ := @ihl v hbl
      have heq : remove_node v (Tree.node x l r) = .node x (remove_node v l) r := by
        simp [remove_node, h1]
      rw [heq]
      refine ⟨?_, ?_, ?_⟩
      · exact is_bst_node.2 ⟨all_tree_iff.2 fun w hw => all_tree_iff.1 hal w (isub w hw),
          har, ibst, hbr⟩
      · intro w hw
        rcases tmem_node.1 hw with hw | hw | hw
        · exact tmem_node.2 (Or.inl hw)
        · exact tmem_node.2 (Or.inr (Or.inl (isub w hw)))
        · exact tmem_node.2 (Or.inr (Or.inr hw))
      · refine tmem_node_false.2 ⟨by omega, imem, ?_⟩
        by_contra hc
        have := hnotr v (by simpa using hc)
        omega
    · by_cases h2 : v > x
      · obtain ⟨ibst, isub, imem⟩ := @ihr v hbr
        have heq : remove_node v (Tree.node x l r) = .node x l (remove_node v r) := by
          simp [remove_node, h1, h2]
        rw [heq]
        refine ⟨?_, ?_, ?_⟩
        · exact is_bst_node.2 ⟨hal,
            all_tree_iff.2 fun w hw => all_tree_iff.1 har w (isub w hw), hbl, ibst⟩
        · intro w hw
          rcases tmem_node.1 hw with hw | hw | hw
          · exact tmem_node.2 (Or.inl hw)
          · exact tmem_node.2 (Or.inr (Or.inl hw))
          · exact tmem_node.2 (Or.inr (Or.inr (isub w hw)))
        · refine tmem_node_false.2 ⟨by omega, ?_, imem⟩
          by_contra hc
          have := hnotl v (by simpa using hc)
          omega
      · have hxv : x = v := by omega
        subst hxv
        cases l with
        | nil =>
          have heq : remove_node x (Tree.node x .nil r) = r := by
            simp [remove_node]
          rw [heq]
          refine ⟨hbr, fun w hw => tmem_node.2 (Or.inr (Or.inr hw)), ?_⟩
          by_contra hc
          have := hnotr x (by simpa using hc)
          omega
        | node lx ll lr =>
          cases r with
          | nil =>
            have heq : remove_node x (Tree.node x (.node lx ll lr) .nil) = .node lx ll lr := by
              simp [remove_node]
            rw [heq]
            refine ⟨hbl, fun w hw => tmem_node.2 (Or.inr (Or.inl hw)), ?_⟩
            by_contra hc
            have := hnotl x (by simpa using hc)
            omega
          | node rx rl rr =>
            have hsome : min_value_node (Tree.node rx rl rr) =
                some (min_value (Tree.node rx rl rr)) := by
              have := min_value_node_isSome rx rl rr
              rw [Option.isSome_iff_exists] at this
              obtain ⟨a, ha⟩ := this
              simp [min_value, ha]
            set m := min_value (Tree.node rx rl rr) with hmdef
            have hmem : tmem m (Tree.node rx rl rr) = true := min_value_node_mem hsome
            have hmle : ∀ w, tmem w (Tree.node rx rl rr) = true → m ≤ w :=
              min_value_node_le hbr hsome
            have hxm : x < m := hnotr m hmem
            obtain ⟨ibst, isub, imem⟩ := @ihr m hbr
            have heq : remove_node x (Tree.node x (.node lx ll lr) (.node rx rl rr)) =
                .node m (.node lx ll lr) (remove_node m (.node rx rl rr)) := by
              simp [remove_node, hmdef]
            rw [heq]
            refine ⟨?_, ?_, ?_⟩
            · refine is_bst_node.2 ⟨all_tree_iff.2 fun w hw => ?_,
                all_tree_iff.2 fun w hw => ?_, hbl, ibst⟩
              · have := hnotl w hw
                simp; omega
              · have hle := hmle w (isub w hw)
                have hne : w ≠ m := by
                  intro hwm
                  rw [hwm, imem] at hw
                  exact absurd hw (by simp)
                simp; omega
            · intro w hw
              rcases tmem_node.1 hw with hw | hw | hw
              · exact tmem_node.2 (Or.inr (Or.inr (hw ▸ hmem)))
              · exact tmem_node.2 (Or.inr (Or.inl hw))
              · exact tmem_node.2 (Or.inr (Or.inr (isub w hw)))
            · refine tmem_node_false.2 ⟨by omega, ?_, ?_⟩
              · by_contra hc
                have := hnotl x (by simpa using hc)
                omega
              · by_contra hc
                have hc2 : tmem x (Tree.node rx rl rr) = true :=
                  isub x (by simpa using hc)
                have := hnotr x hc2
                omega

theorem find_add_self {v : Int} : ∀ {t : Tree}, find_node v (add_node v t) = true := by
  intro t
  induction t with
  | nil => simp [add_node, find_node]
  | node x l r ihl ihr =>
    by_cases h1 : x = v
    · simp [add_node, find_node, h1]
    · by_cases h2 : x > v
      · have h3 : ¬ x < v := by omega
        simp [add_node, find_node, h1, h2, h3, ihl]
      · have h3 : x < v := by omega
        simp [add_node, find_node, h1, h2, h3, ihr]

end SBST

/-! ## BST machinery for the AVL tree (claim C6) -/

namespace AVL

theorem tmem_node_h {w x h : Int} {l r : Tree} :
    tmem w (.node x h l r) = true ↔ x = w ∨ tmem w l = true ∨ tmem w r = true := by
  simp only [tmem, Bool.or_eq_true, decide_eq_true_eq, or_assoc]

theorem tmem_node_false_h {w x h : Int} {l r : Tree} :
    tmem w (.node x h l r) = false ↔ x ≠ w ∧ tmem w l = false ∧ tmem w r = false := by
  simp only [tmem, Bool.or_eq_false_iff, decide_eq_false_iff_not, and_assoc]

theorem is_bst_node_h {x h : Int} {l r : Tree} :
    is_bst (.node x h l r) = true ↔
      all_tree (fun y => decide (y < x)) l = true ∧
      all_tree (fun y => decide (x < y)) r = true ∧
      is_bst l = true ∧ is_bst r = true := by
  simp only [is_bst, Bool.and_eq_true, and_assoc]

theorem all_tree_iff_h {p : Int → Bool} : ∀ {t : Tree},
    all_tree p t = true ↔ ∀ w, tmem w t = true → p w = true := by
  intro t
  induction t with
  | nil => simp [all_tree, tmem]
  | node x h l r ihl ihr =>
    simp only [all_tree, Bool.and_eq_true]
    constructor
    · rintro ⟨⟨hx, hl⟩, hr⟩ w hw
      rcases tmem_node_h.1 hw with hw | hw | hw
      · exact hw ▸ hx
      · exact ihl.1 hl w hw
      · exact ihr.1 hr w hw
    · intro hall
      exact ⟨⟨hall x (tmem_node_h.2 (Or.inl rfl)),
        ihl.2 fun w hw => hall w (tmem_node_h.2 (Or.inr (Or.inl hw)))⟩,
        ihr.2 fun w hw => hall w (tmem_node_h.2 (Or.inr (Or.inr hw)))⟩

theorem all_tree_congr {p : Int → Bool} {t1 t2 : Tree}
    (h : ∀ w, tmem w t1 = true ↔ tmem w t2 = true) :
    all_tree p t1 = all_tree p t2 := by
  rw [Bool.eq_iff_iff, all_tree_iff_h, all_tree_iff_h]
  exact ⟨fun ha w hw => ha w ((h w).2 hw), fun ha w hw => ha w ((h w).1 hw)⟩

theorem tmem_rot_left {w : Int} : ∀ t : Tree,
    tmem w (bst_rotate_left t) = tmem w t := by
  intro t
  cases t with
  | nil => rfl
  | node x h l r =>
    cases r with
    | nil => rfl
    | node rx rh rl rr =>
      rw [Bool.eq_iff_iff]
      simp only [bst_rotate_left, tmem_node_h]
      tauto

theorem tmem_rot_right {w : Int} : ∀ t : Tree,
    tmem w (bst_rotate_right t) = tmem w t := by
  intro t
  cases t with
  | nil => rfl
  | node x h l r =>
    cases l with
    | nil => rfl
    | node lx lh ll lr =>
      rw [Bool.eq_iff_iff]
      simp only [bst_rotate_right, tmem_node_h]
      tauto

theorem bst_rot_left : ∀ {t : Tree}, is_bst t = true → is_bst (bst_rotate_left t) = true := by
  intro t hb
  cases t with
  | nil => exact hb
  | node x h l r =>
    cases r with
    | nil => exact hb
    | node rx rh rl rr =>
      obtain ⟨hal, har, hbl, hbr⟩ := is_bst_node_h.1 hb
      obtain ⟨harl, harr, hbrl, hbrr⟩ := is_bst_node_h.1 hbr
      have hxrx : x < rx := by
        have := all_tree_iff_h.1 har rx (tmem_node_h.2 (Or.inl rfl))
        simpa using this
      refine is_bst_node_h.2 ⟨all_tree_iff_h.2 fun w hw => ?_, all_tree_iff_h.2 fun w hw => ?_,
        is_bst_node_h.2 ⟨hal, ?_, hbl, hbrl⟩, hbrr⟩
      · rcases tmem_node_h.1 hw with hw | hw | hw
        · simp; omega
        · have := all_tree_iff_h.1 hal w hw
          simp at this ⊢; omega
        · have := all_tree_iff_h.1 harl w hw
          simpa using this
      · exact all_tree_iff_h.1 harr w hw
      · exact all_tree_iff_h.2 fun w hw => by
          have := all_tree_iff_h.1 har w (tmem_node_h.2 (Or.inr (Or.inl hw)))
          exact this

theorem bst_rot_right : ∀ {t : Tree}, is_bst t = true → is_bst (bst_rotate_right t) = true := by
  intro t hb
  cases t with
  | nil => exact hb
  | node x h l r =>
    cases l with
    | nil => exact hb
    | node lx lh ll lr =>
      obtain ⟨hal, har, hbl, hbr⟩ := is_bst_node_h.1 hb
      obtain ⟨hall, halr, hbll, hblr⟩ := is_bst_node_h.1 hbl
      have hlxx : lx < x := by
        have := all_tree_iff_h.1 hal lx (tmem_node_h.2 (Or.inl rfl))
        simpa using this
      refine is_bst_node_h.2 ⟨all_tree_iff_h.2 fun w hw => ?_, all_tree_iff_h.2 fun w hw => ?_,
        hbll, is_bst_node_h.2 ⟨?_, har, hblr, hbr⟩⟩
      · exact all_tree_iff_h.1 hall w hw
      · rcases tmem_node_h.1 hw with hw | hw | hw
        · simp; omega
        · have := all_tree_iff_h.1 halr w hw
          simpa using this
        · have := all_tree_iff_h.1 har w hw
          simp at this ⊢; omega
      · exact all_tree_iff_h.2 fun w hw => by
          have := all_tree_iff_h.1 hal w (tmem_node_h.2 (Or.inr (Or.inr hw)))
          exact this

end AVL

namespace AVL

theorem all_tree_rot_left {p : Int → Bool} (t : Tree) :
    all_tree p (bst_rotate_left t) = all_tree p t :=
  all_tree_congr fun w => by rw [tmem_rot_left]

theorem all_tree_rot_right {p : Int → Bool} (t : Tree) :
    all_tree p (bst_rotate_right t) = all_tree p t :=
  all_tree_congr fun w => by rw [tmem_rot_right]

theorem tmem_add_fix {w v : Int} : ∀ t : Tree, tmem w (add_fix v t) = tmem w t := by
  intro t
  cases t with
  | nil => rfl
  | node x h l r =>
    simp only [add_fix]
    split_ifs with h1 h2
    · cases l with
      | nil =>
        rw [Bool.eq_iff_iff]
        simp only [tmem_rot_right, tmem_rot_left, tmem_node_h]
        try tauto
      | node lx lh2 ll lr =>
        dsimp only
        split_ifs with h3 <;>
        · rw [Bool.eq_iff_iff]
          simp only [tmem_rot_right, tmem_rot_left, tmem_node_h]
          try tauto
    · cases r with
      | nil =>
        rw [Bool.eq_iff_iff]
        simp only [tmem_rot_right, tmem_rot_left, tmem_node_h]
        try tauto
      | node rx rh2 rl rr =>
        dsimp only
        split_ifs with h3 <;>
        · rw [Bool.eq_iff_iff]
          simp only [tmem_rot_right, tmem_rot_left, tmem_node_h]
          try tauto
    · rw [Bool.eq_iff_iff]
      simp only [tmem_node_h]

theorem bst_add_fix {v : Int} : ∀ {t : Tree}, is_bst t = true →
    is_bst (add_fix v t) = true := by
  intro t hb
  cases t with
  | nil => exact hb
  | node x h l r =>
    obtain ⟨hal, har, hbl, hbr⟩ := is_bst_node_h.1 hb
    simp only [add_fix]
    split_ifs with h1 h2
    · cases l with
      | nil => exact is_bst_node_h.2 ⟨hal, har, hbl, hbr⟩
      | node lx lh2 ll lr =>
        dsimp only
        split_ifs with h3
        · refine bst_rot_right (is_bst_node_h.2 ⟨?_, har, bst_rot_left hbl, hbr⟩)
          rw [all_tree_rot_left]
          exact hal
        · exact bst_rot_right (is_bst_node_h.2 ⟨hal, har, hbl, hbr⟩)
    · cases r with
      | nil => exact is_bst_node_h.2 ⟨hal, har, hbl, hbr⟩
      | node rx rh2 rl rr =>
        dsimp only
        split_ifs with h3
        · refine bst_rot_left (is_bst_node_h.2 ⟨hal, ?_, hbl, bst_rot_right hbr⟩)
          rw [all_tree_rot_right]
          exact har
        · exact bst_rot_left (is_bst_node_h.2 ⟨hal, har, hbl, hbr⟩)
    · exact is_bst_node_h.2 ⟨hal, har, hbl, hbr⟩

theorem tmem_remove_fix {w : Int} : ∀ t : Tree, tmem w (remove_fix t) = tmem w t := by
  intro t
  cases t with
  | nil => rfl
  | node x h l r =>
    simp only [remove_fix]
    split_ifs with h1 h2 h3 h4 <;>
    · rw [Bool.eq_iff_iff]
      simp only [tmem_rot_right, tmem_rot_left, tmem_node_h]
      try tauto

theorem bst_remove_fix : ∀ {t : Tree}, is_bst t = true → is_bst (remove_fix t) = true := by
  intro t hb
  cases t with
  | nil => exact hb
  | node x h l r =>
    obtain ⟨hal, har, hbl, hbr⟩ := is_bst_node_h.1 hb
    simp only [remove_fix]
    split_ifs with h1 h2 h3 h4
    · exact bst_rot_right (is_bst_node_h.2 ⟨hal, har, hbl, hbr⟩)
    · refine bst_rot_right (is_bst_node_h.2 ⟨?_, har, bst_rot_left hbl, hbr⟩)
      rw [all_tree_rot_left]
      exact hal
    · exact bst_rot_left (is_bst_node_h.2 ⟨hal, har, hbl, hbr⟩)
    · refine bst_rot_left (is_bst_node_h.2 ⟨hal, ?_, hbl, bst_rot_right hbr⟩)
      rw [all_tree_rot_right]
      exact har
    · exact is_bst_node_h.2 ⟨hal, har, hbl, hbr⟩

end AVL

namespace AVL

theorem tmem_add {w v : Int} : ∀ {t : Tree}, tmem w (add_node v t) = true →
    w = v ∨ tmem w t = true := by
  intro t
  induction t with
  | nil =>
    intro hw
    rw [show add_node v Tree.nil = add_fix v (.node v 0 .nil .nil) from rfl,
      tmem_add_fix] at hw
    rcases tmem_node_h.1 hw with hw | hw | hw
    · exact Or.inl hw.symm
    · simp [tmem] at hw
    · simp [tmem] at hw
  | node x h l r ihl ihr =>
    intro hw
    by_cases h1 : v < x
    · rw [show add_node v (Tree.node x h l r) = add_fix v (.node x h (add_node v l) r) by
        simp [add_node, h1], tmem_add_fix] at hw
      rcases tmem_node_h.1 hw with hw | hw | hw
      · exact Or.inr (tmem_node_h.2 (Or.inl hw))
      · rcases ihl hw with hw | hw
        · exact Or.inl hw
        · exact Or.inr (tmem_node_h.2 (Or.inr (Or.inl hw)))
      · exact Or.inr (tmem_node_h.2 (Or.inr (Or.inr hw)))
    · by_cases h2 : v > x
      · rw [show add_node v (Tree.node x h l r) = add_fix v (.node x h l (add_node v r)) by
          simp [add_node, h1, h2], tmem_add_fix] at hw
        rcases tmem_node_h.1 hw with hw | hw | hw
        · exact Or.inr (tmem_node_h.2 (Or.inl hw))
        · exact Or.inr (tmem_node_h.2 (Or.inr (Or.inl hw)))
        · rcases ihr hw with hw | hw
          · exact Or.inl hw
          · exact Or.inr (tmem_node_h.2 (Or.inr (Or.inr hw)))
      · rw [show add_node v (Tree.node x h l r) = add_fix v (.node x h l r) by
          simp [add_node, h1, h2], tmem_add_fix] at hw
        exact Or.inr hw

theorem tmem_add_self {v : Int} : ∀ {t : Tree}, tmem v (add_node v t) = true := by
  intro t
  induction t with
  | nil =>
    rw [show add_node v Tree.nil = add_fix v (.node v 0 .nil .nil) from rfl, tmem_add_fix]
    exact tmem_node_h.2 (Or.inl rfl)
  | node x h l r ihl ihr =>
    by_cases h1 : v < x
    · rw [show add_node v (Tree.node x h l r) = add_fix v (.node x h (add_node v l) r) by
        simp [add_node, h1], tmem_add_fix]
      exact tmem_node_h.2 (Or.inr (Or.inl ihl))
    · by_cases h2 : v > x
      · rw [show add_node v (Tree.node x h l r) = add_fix v (.node x h l (add_node v r)) by
          simp [add_node, h1, h2], tmem_add_fix]
        exact tmem_node_h.2 (Or.inr (Or.inr ihr))
      · rw [show add_node v (Tree.node x h l r) = add_fix v (.node x h l r) by
          simp [add_node, h1, h2], tmem_add_fix]
        exact tmem_node_h.2 (Or.inl (by omega))

theorem bst_add {v : Int} : ∀ {t : Tree}, is_bst t = true → is_bst (add_node v t) = true := by
  intro t
  induction t with
  | nil =>
    intro _
    exact bst_add_fix (by simp [is_bst, all_tree])
  | node x h l r ihl ihr =>
    intro hb
    obtain ⟨hal, har, hbl, hbr⟩ := is_bst_node_h.1 hb
    by_cases h1 : v < x
    · rw [show add_node v (Tree.node x h l r) = add_fix v (.node x h (add_node v l) r) by
        simp [add_node, h1]]
      refine bst_add_fix (is_bst_node_h.2 ⟨all_tree_iff_h.2 fun w hw => ?_, har, ihl hbl, hbr⟩)
      rcases tmem_add hw with hw | hw
      · simp [hw]; omega
      · exact all_tree_iff_h.1 hal w hw
    · by_cases h2 : v > x
      · rw [show add_node v (Tree.node x h l r) = add_fix v (.node x h l (add_node v r)) by
          simp [add_node, h1, h2]]
        refine bst_add_fix (is_bst_node_h.2 ⟨hal, all_tree_iff_h.2 fun w hw => ?_, hbl, ihr hbr⟩)
        rcases tmem_add hw with hw | hw
        · simp [hw]; omega
        · exact all_tree_iff_h.1 har w hw
      · rw [show add_node v (Tree.node x h l r) = add_fix v (.node x h l r) by
          simp [add_node, h1, h2]]
        exact bst_add_fix hb

theorem find_eq_tmem_h {v : Int} : ∀ {t : Tree}, is_bst t = true → find_node v t = tmem v t := by
  intro t hb
  induction t with
  | nil => rfl
  | node x h l r ihl ihr =>
    obtain ⟨hal, har, hbl, hbr⟩ := is_bst_node_h.1 hb
    by_cases h1 : x = v
    · simp [find_node, tmem, h1]
    · by_cases h2 : x < v
      · have hnl : tmem v l = false := by
          by_contra hc
          have := all_tree_iff_h.1 hal v (by simpa using hc)
          simp at this; omega
        simp [find_node, tmem, h1, h2, hnl, ihr hbr]
      · have hnr : tmem v r = false := by
          by_contra hc
          have := all_tree_iff_h.1 har v (by simpa using hc)
          simp at this; omega
        simp [find_node, tmem, h1, h2, hnr, ihl hbl]

theorem min_value_node_isSome_h : ∀ (x h : Int) (l r : Tree),
    (min_value_node (.node x h l r)).isSome = true := by
  intro x h l r
  induction l generalizing x h r with
  | nil => simp [min_value_node]
  | node lx lh ll lr ih _ => simpa [min_value_node] using ih lx lh lr

theorem min_value_node_mem_h : ∀ {t : Tree} {m : Int}, min_value_node t = some m →
    tmem m t = true := by
  intro t
  induction t with
  | nil => simp [min_value_node]
  | node x h l r ihl _ =>
    intro m hm
    cases l with
    | nil =>
      simp only [min_value_node, Option.some.injEq] at hm
      exact tmem_node_h.2 (Or.inl hm)
    | node lx lh ll lr =>
      simp only [min_value_node] at hm
      exact tmem_node_h.2 (Or.inr (Or.inl (ihl hm)))

theorem min_value_node_le_h : ∀ {t : Tree} {m : Int}, is_bst t = true →
    min_value_node t = some m → ∀ w, tmem w t = true → m ≤ w := by
  intro t
  induction t with
  | nil => simp [min_value_node]
  | node x h l r ihl _ =>
    intro m hb hm w hw
    obtain ⟨hal, har, hbl, hbr⟩ := is_bst_node_h.1 hb
    rcases tmem_node_h.1 hw with hw | hw | hw
    · subst hw
      cases l with
      | nil => simp only [min_value_node, Option.some.injEq] at hm; omega
      | node lx lh ll lr =>
        simp only [min_value_node] at hm
        have := all_tree_iff_h.1 hal m (min_value_node_mem_h hm)
        simp at this; omega
    · cases l with
      | nil => simp [tmem] at hw
      | node lx lh ll lr =>
        simp only [min_value_node] at hm
        exact ihl hbl hm w hw
    · have hxw : x < w := by
        have := all_tree_iff_h.1 har w hw
        simpa using this
      cases l with
      | nil => simp only [min_value_node, Option.some.injEq] at hm; omega
      | node lx lh ll lr =>
        simp only [min_value_node] at hm
        have := all_tree_iff_h.1 hal m (min_value_node_mem_h hm)
        simp at this; omega

end AVL

namespace AVL

theorem remove_node_spec_h {v : Int} : ∀ {t : Tree}, is_bst t = true →
    is_bst (remove_node v t) = true ∧
    (∀ w, tmem w (remove_node v t) = true → tmem w t = true) ∧
    tmem v (remove_node v t) = false := by
  intro t
  induction t generalizing v with
  | nil => simp [remove_node, tmem]
  | node x h l r ihl ihr =>
    intro hb
    obtain ⟨hal, har, hbl, hbr⟩ := is_bst_node_h.1 hb
    have hnotl : ∀ w, tmem w l = true → w < x := fun w hw => by
      have := all_tree_iff_h.1 hal w hw; simpa using this
    have hnotr : ∀ w, tmem w r = true → x < w := fun w hw => by
      have := all_tree_iff_h.1 har w hw; simpa using this
    by_cases h1 : v < x
    · obtain ⟨ibst, isub, imem⟩ := @ihl v hbl
      have heq : remove_node v (Tree.node x h l r) =
          remove_fix (.node x h (remove_node v l) r) := by
        simp [remove_node, h1]
      rw [heq]
      refine ⟨?_, ?_, ?_⟩
      · exact bst_remove_fix (is_bst_node_h.2
          ⟨all_tree_iff_h.2 fun w hw => all_tree_iff_h.1 hal w (isub w hw), har, ibst, hbr⟩)
      · intro w hw
        rw [tmem_remove_fix] at hw
        rcases tmem_node_h.1 hw with hw | hw | hw
        · exact tmem_node_h.2 (Or.inl hw)
        · exact tmem_node_h.2 (Or.inr (Or.inl (isub w hw)))
        · exact tmem_node_h.2 (Or.inr (Or.inr hw))
      · rw [tmem_remove_fix]
        refine tmem_node_false_h.2 ⟨by omega, imem, ?_⟩
        by_contra hc
        have := hnotr v (by simpa using hc)
        omega
    · by_cases h2 : v > x
      · obtain ⟨ibst, isub, imem⟩ := @ihr v hbr
        have heq : remove_node v (Tree.node x h l r) =
            remove_fix (.node x h l (remove_node v r)) := by
          simp [remove_node, h1, h2]
        rw [heq]
        refine ⟨?_, ?_, ?_⟩
        · exact bst_remove_fix (is_bst_node_h.2
            ⟨hal, all_tree_iff_h.2 fun w hw => all_tree_iff_h.1 har w (isub w hw), hbl, ibst⟩)
        · intro w hw
          rw [tmem_remove_fix] at hw
          rcases tmem_node_h.1 hw with hw | hw | hw
          · exact tmem_node_h.2 (Or.inl hw)
          · exact tmem_node_h.2 (Or.inr (Or.inl hw))
          · exact tmem_node_h.2 (Or.inr (Or.inr (isub w hw)))
        · rw [tmem_remove_fix]
          refine tmem_node_false_h.2 ⟨by omega, ?_, imem⟩
          by_contra hc
          have := hnotl v (by simpa using hc)
          omega
      · have hxv : x = v := by omega
        subst hxv
        cases l with
        | nil =>
          have heq : remove_node x (Tree.node x h .nil r) = remove_fix r := by
            simp [remove_node]
          rw [heq]
          refine ⟨bst_remove_fix hbr, ?_, ?_⟩
          · intro w hw
            rw [tmem_remove_fix] at hw
            exact tmem_node_h.2 (Or.inr (Or.inr hw))
          · rw [tmem_remove_fix]
            by_contra hc
            have := hnotr x (by simpa using hc)
            omega
        | node lx lh ll lr =>
          cases r with
          | nil =>
            have heq : remove_node x (Tree.node x h (.node lx lh ll lr) .nil) =
                remove_fix (.node lx lh ll lr) := by
              simp [remove_node]
            rw [heq]
            refine ⟨bst_remove_fix hbl, ?_, ?_⟩
            · intro w hw
              rw [tmem_remove_fix] at hw
              exact tmem_node_h.2 (Or.inr (Or.inl hw))
            · rw [tmem_remove_fix]
              by_contra hc
              have := hnotl x (by simpa using hc)
              omega
          | node rx rh rl rr =>
            have hsome : min_value_node (Tree.node rx rh rl rr) =
                some (min_value (Tree.node rx rh rl rr)) := by
              have := min_value_node_isSome_h rx rh rl rr
              rw [Option.isSome_iff_exists] at this
              obtain ⟨a, ha⟩ := this
              simp [min_value, ha]
            set m := min_value (Tree.node rx rh rl rr) with hmdef
            have hmem : tmem m (Tree.node rx rh rl rr) = true := min_value_node_mem_h hsome
            have hmle : ∀ w, tmem w (Tree.node rx rh rl rr) = true → m ≤ w :=
              min_value_node_le_h hbr hsome
            have hxm : x < m := hnotr m hmem
            obtain ⟨ibst, isub, imem⟩ := @ihr m hbr
            have heq : remove_node x (Tree.node x h (.node lx lh ll lr) (.node rx rh rl rr)) =
                remove_fix (.node m h (.node lx lh ll lr)
                  (remove_node m (.node rx rh rl rr))) := by
              simp [remove_node, hmdef]
            rw [heq]
            refine ⟨?_, ?_, ?_⟩
            · refine bst_remove_fix (is_bst_node_h.2 ⟨all_tree_iff_h.2 fun w hw => ?_,
                all_tree_iff_h.2 fun w hw => ?_, hbl, ibst⟩)
              · have := hnotl w hw
                simp; omega
              · have hle := hmle w (isub w hw)
                have hne : w ≠ m := by
                  intro hwm
                  rw [hwm, imem] at hw
                  exact absurd hw (by simp)
                simp; omega
            · intro w hw
              rw [tmem_remove_fix] at hw
              rcases tmem_node_h.1 hw with hw | hw | hw
              · exact tmem_node_h.2 (Or.inr (Or.inr (hw ▸ hmem)))
              · exact tmem_node_h.2 (Or.inr (Or.inl hw))
              · exact tmem_node_h.2 (Or.inr (Or.inr (isub w hw)))
            · rw [tmem_remove_fix]
              refine tmem_node_false_h.2 ⟨by omega, ?_, ?_⟩
              · by_contra hc
                have := hnotl x (by simpa using hc)
                omega
              · by_contra hc
                have hc2 : tmem x (Tree.node rx rh rl rr) = true :=
                  isub x (by simpa using hc)
                have := hnotr x hc2
                omega

end AVL

/-! ## Claim C6: round-trip insert/find and delete/find -/

/-- C6: for the plain BST and the AVL tree, inserting a value and immediately
searching for it with `find` returns true (for the AVL variant on any
BST-ordered tree, since the rebalancing rotations redirect the search path),
and deleting the value and immediately searching for it returns false on any
BST-ordered tree — the trees the program builds are always BST-ordered. -/
theorem claim_C6 (v : Int) (t1 : SBST.Tree) (t2 : AVL.Tree) :
    SBST.find_node v (SBST.add_node v t1) = true ∧
    (SBST.is_bst t1 = true → SBST.find_node v (SBST.remove_node v t1) = false) ∧
    (AVL.is_bst t2 = true → AVL.find_node v (AVL.add_node v t2) = true) ∧
    (AVL.is_bst t2 = true → AVL.find_node v (AVL.remove_node v t2) = false) := by
  refine ⟨SBST.find_add_self, fun hb => ?_, fun hb => ?_, fun hb => ?_⟩
  · obtain ⟨ibst, _, imem⟩ := @SBST.remove_node_spec v t1 hb
    rw [SBST.find_eq_tmem ibst, imem]
  · rw [AVL.find_eq_tmem_h (AVL.bst_add hb), AVL.tmem_add_self]
  · obtain ⟨ibst, _, imem⟩ := @AVL.remove_node_spec_h v t2 hb
    rw [AVL.find_eq_tmem_h ibst, imem]

/-- Witness for C6 at concrete inputs: a two-node BST and a two-node AVL tree
with value 5 inserted then found, removed then not found. -/
theorem claim_C6_witness :
    SBST.find_node 5 (SBST.add_node 5 (.node 2 .nil (.node 7 .nil .nil))) = true ∧
    SBST.find_node 5 (SBST.remove_node 5 (.node 2 .nil (.node 7 .nil .nil))) = false ∧
    AVL.find_node 5 (AVL.add_node 5 (.node 2 1 .nil (.node 7 0 .nil .nil))) = true ∧
    AVL.find_node 5 (AVL.remove_node 5 (.node 2 1 .nil (.node 7 0 .nil .nil))) = false := by
  obtain ⟨hc1, hc2, hc3, hc4⟩ :=
    claim_C6 5 (.node 2 .nil (.node 7 .nil .nil)) (.node 2 1 .nil (.node 7 0 .nil .nil))
  exact ⟨hc1, hc2 (by decide), hc3 (by decide), hc4 (by decide)⟩

/-! ## Red-black insertion machinery (claim C2) -/

namespace RB

theorem bh_nil_inv {n : Nat} (h : BlackHeight .nil n) : n = 0 := by
  cases h; rfl

theorem bh_red_inv {v : Int} {l r : Tree} {n : Nat}
    (h : BlackHeight (.node v l r .red) n) : BlackHeight l n ∧ BlackHeight r n := by
  cases h with
  | red hl hr => exact ⟨hl, hr⟩

theorem bh_black_inv {v : Int} {l r : Tree} {n : Nat}
    (h : BlackHeight (.node v l r .black) n) :
    ∃ m, n = m + 1 ∧ BlackHeight l m ∧ BlackHeight r m := by
  cases h with
  | black hl hr => exact ⟨_, rfl, hl, hr⟩

theorem nrr_red {v : Int} {l r : Tree} :
    no_red_red (.node v l r .red) = true ↔
      is_red l = false ∧ is_red r = false ∧ no_red_red l = true ∧ no_red_red r = true := by
  simp only [no_red_red, Bool.and_eq_true, Bool.not_eq_true', and_assoc]

theorem nrr_black {v : Int} {l r : Tree} :
    no_red_red (.node v l r .black) = true ↔
      no_red_red l = true ∧ no_red_red r = true := by
  simp only [no_red_red, Bool.true_and, Bool.and_eq_true]

theorem red_children_black : ∀ {t : Tree}, no_red_red t = true → is_red t = true →
    is_red (left t) = false ∧ is_red (right t) = false := by
  intro t hn hr
  cases t with
  | nil => simp [is_red] at hr
  | node x l r c =>
    cases c with
    | red =>
      obtain ⟨h1, h2, _, _⟩ := nrr_red.1 hn
      exact ⟨h1, h2⟩
    | black => simp [is_red] at hr

theorem nrr_set_black {x : Int} {l r : Tree} {c : Color} :
    no_red_red (set_black (.node x l r c)) = true ↔
      no_red_red l = true ∧ no_red_red r = true := by
  simp only [set_black, nrr_black]

theorem is_red_set_black : ∀ t : Tree, is_red (set_black t) = false := by
  intro t
  cases t <;> rfl

theorem bh_set_black : ∀ {t : Tree} {n : Nat}, BlackHeight t n →
    ∃ m, BlackHeight (set_black t) m := by
  intro t n h
  cases t with
  | nil => exact ⟨0, .nil⟩
  | node x l r c =>
    cases c with
    | red =>
      obtain ⟨hl, hr⟩ := bh_red_inv h
      exact ⟨n + 1, .black hl hr⟩
    | black => exact ⟨n, h⟩

end RB

namespace RB

theorem nrr_children {x : Int} {l r : Tree} {c : Color}
    (h : no_red_red (.node x l r c) = true) :
    no_red_red l = true ∧ no_red_red r = true := by
  cases c with
  | red => obtain ⟨_, _, h1, h2⟩ := nrr_red.1 h; exact ⟨h1, h2⟩
  | black => exact nrr_black.1 h

theorem nrr_cond_false {s : Tree} (h : no_red_red s = true) :
    (is_red s && is_red (left s)) = false ∧ (is_red s && is_red (right s)) = false := by
  by_cases hr : is_red s = true
  · obtain ⟨h1, h2⟩ := red_children_black h hr
    simp [h1, h2]
  · simp only [Bool.not_eq_true] at hr
    simp [hr]

theorem nrr_of_parts {s : Tree} (h2 : no_red_red (set_black s) = true)
    (h3 : is_red s = true → is_red (left s) = false ∧ is_red (right s) = false) :
    no_red_red s = true := by
  cases s with
  | nil => rfl
  | node x l r c =>
    cases c with
    | red =>
      obtain ⟨hl, hr⟩ := h3 rfl
      exact nrr_red.2 ⟨hl, hr, (nrr_set_black.1 h2).1, (nrr_set_black.1 h2).2⟩
    | black => exact h2

theorem fix_id {x : Int} {l r : Tree} {c : Color}
    (h1 : (is_red l && is_red (left l)) = false)
    (h2 : (is_red l && is_red (right l)) = false)
    (h3 : (is_red r && is_red (right r)) = false)
    (h4 : (is_red r && is_red (left r)) = false) :
    fix_red_black (.node x l r c) = .node x l r c := by
  simp [fix_red_black, h1, h2, h3, h4]

theorem fix_left1 {x ly az : Int} {a1 a2 b r : Tree} {c : Color} :
    fix_red_black (.node x (.node ly (.node az a1 a2 .red) b .red) r c) =
      .node ly (.node az a1 a2 .black) (.node x b r c) .red := rfl

theorem fix_left2 {x ly bz : Int} {a b1 b2 r : Tree} {c : Color} (ha : is_red a = false) :
    fix_red_black (.node x (.node ly a (.node bz b1 b2 .red) .red) r c) =
      .node bz (.node ly a b1 .black) (.node x b2 r c) .red := by
  have h1 : (is_red (Tree.node ly a (.node bz b1 b2 .red) .red) &&
      is_red (left (Tree.node ly a (.node bz b1 b2 .red) .red))) = false := by
    cases a with
    | nil => rfl
    | node av al ar ac =>
      cases ac with
      | red => simp [is_red] at ha
      | black => rfl
  have h2 : (is_red (Tree.node ly a (.node bz b1 b2 .red) .red) &&
      is_red (right (Tree.node ly a (.node bz b1 b2 .red) .red))) = true := by
    simp [is_red, right]
  simp only [fix_red_black]
  rw [h1, h2]
  simp only [Bool.false_eq_true, if_false, if_true]
  rfl

theorem fix_right3 {x ry dz : Int} {l a d1 d2 : Tree} {c : Color}
    (h1 : (is_red l && is_red (left l)) = false)
    (h2 : (is_red l && is_red (right l)) = false) :
    fix_red_black (.node x l (.node ry a (.node dz d1 d2 .red) .red) c) =
      .node ry (.node x l a c) (.node dz d1 d2 .black) .red := by
  have h3 : (is_red (Tree.node ry a (.node dz d1 d2 .red) .red) &&
      is_red (right (Tree.node ry a (.node dz d1 d2 .red) .red))) = true := by
    simp [is_red, right]
  simp only [fix_red_black]
  rw [h1, h2, h3]
  simp only [Bool.false_eq_true, if_false, if_true]
  rfl

theorem fix_right4 {x ry cz : Int} {l c1 c2 d : Tree} {c : Color}
    (h1 : (is_red l && is_red (left l)) = false)
    (h2 : (is_red l && is_red (right l)) = false)
    (hd : is_red d = false) :
    fix_red_black (.node x l (.node ry (.node cz c1 c2 .red) d .red) c) =
      .node cz (.node x l c1 c) (.node ry c2 d .black) .red := by
  have h3 : (is_red (Tree.node ry (.node cz c1 c2 .red) d .red) &&
      is_red (right (Tree.node ry (.node cz c1 c2 .red) d .red))) = false := by
    cases d with
    | nil => rfl
    | node dv dl dr dc =>
      cases dc with
      | red => simp [is_red] at hd
      | black => rfl
  have h4 : (is_red (Tree.node ry (.node cz c1 c2 .red) d .red) &&
      is_red (left (Tree.node ry (.node cz c1 c2 .red) d .red))) = true := by
    simp [is_red, left]
  simp only [fix_red_black]
  rw [h1, h2, h3, h4]
  simp only [Bool.false_eq_true, if_false, if_true]
  rfl

end RB

namespace RB

theorem add_rec_inv (v : Int) : ∀ {t : Tree} {n : Nat}, no_red_red t = true →
    BlackHeight t n →
    BlackHeight (add_node_rec v t) n ∧
    no_red_red (set_black (add_node_rec v t)) = true ∧
    (is_red t = false → no_red_red (add_node_rec v t) = true) := by
  intro t
  induction t with
  | nil =>
    intro n hn hb
    have h0 : n = 0 := bh_nil_inv hb
    subst h0
    refine ⟨BlackHeight.red .nil .nil, by simp [set_black, no_red_red], fun _ => ?_⟩
    exact nrr_red.2 ⟨rfl, rfl, rfl, rfl⟩
  | node x l r c ihl ihr =>
    intro n hn hb
    obtain ⟨hnl, hnr⟩ := nrr_children hn
    by_cases hv1 : v < x
    · have heq : add_node_rec v (.node x l r c) =
          fix_red_black (.node x (add_node_rec v l) r c) := by
        simp [add_node_rec, hv1]
      cases c with
      | red =>
        obtain ⟨hlred, hrred, _, _⟩ := nrr_red.1 hn
        obtain ⟨hbl, hbr⟩ := bh_red_inv hb
        obtain ⟨ibh, ic2, irr⟩ := ihl hnl hbl
        have hnl2 : no_red_red (add_node_rec v l) = true := irr hlred
        obtain ⟨c1, c2⟩ := nrr_cond_false hnl2
        obtain ⟨c4, c3⟩ := nrr_cond_false hnr
        rw [heq, fix_id c1 c2 c3 c4]
        refine ⟨BlackHeight.red ibh hbr, nrr_set_black.2 ⟨hnl2, hnr⟩, fun hc => ?_⟩
        simp [is_red] at hc
      | black =>
        obtain ⟨m, hm, hbl, hbr⟩ := bh_black_inv hb
        subst hm
        obtain ⟨ibh, ic2, _⟩ := ihl hnl hbl
        by_cases hviol : is_red (add_node_rec v l) = true ∧
            (is_red (left (add_node_rec v l)) = true ∨
             is_red (right (add_node_rec v l)) = true)
        · obtain ⟨hl2red, hchild⟩ := hviol
          cases hE : add_node_rec v l with
          | nil => rw [hE] at hl2red; simp [is_red] at hl2red
          | node ly a b col =>
            rw [hE] at hl2red
            cases col with
            | black => simp [is_red] at hl2red
            | red =>
              rw [hE] at ibh ic2 hchild
              simp only [left, right] at hchild
              obtain ⟨hba, hbb⟩ := bh_red_inv ibh
              obtain ⟨hna, hnb⟩ := nrr_set_black.1 ic2
              by_cases ha : is_red a = true
              · cases hA : a with
                | nil => rw [hA] at ha; simp [is_red] at ha
                | node az a1 a2 acol =>
                  rw [hA] at ha
                  cases acol with
                  | black => simp [is_red] at ha
                  | red =>
                    rw [hA] at hba hna
                    obtain ⟨hba1, hba2⟩ := bh_red_inv hba
                    obtain ⟨_, _, hna1, hna2⟩ := nrr_red.1 hna
                    rw [heq, hE, hA, fix_left1]
                    refine ⟨?_, ?_, fun _ => ?_⟩
                    · exact BlackHeight.red (BlackHeight.black hba1 hba2)
                        (BlackHeight.black hbb hbr)
                    · exact nrr_set_black.2
                        ⟨nrr_black.2 ⟨hna1, hna2⟩, nrr_black.2 ⟨hnb, hnr⟩⟩
                    · exact nrr_red.2 ⟨rfl, rfl, nrr_black.2 ⟨hna1, hna2⟩,
                        nrr_black.2 ⟨hnb, hnr⟩⟩
              · have ha2 : is_red a = false := by simpa using ha
                have hbred : is_red b = true := by
                  rcases hchild with hc | hc
                  · exact absurd hc ha
                  · exact hc
                cases hB : b with
                | nil => rw [hB] at hbred; simp [is_red] at hbred
                | node bz b1 b2 bcol =>
                  rw [hB] at hbred
                  cases bcol with
                  | black => simp [is_red] at hbred
                  | red =>
                    rw [hB] at hbb hnb
                    obtain ⟨hbb1, hbb2⟩ := bh_red_inv hbb
                    obtain ⟨_, _, hnb1, hnb2⟩ := nrr_red.1 hnb
                    rw [heq, hE, hB, fix_left2 ha2]
                    refine ⟨?_, ?_, fun _ => ?_⟩
                    · exact BlackHeight.red (BlackHeight.black hba hbb1)
                        (BlackHeight.black hbb2 hbr)
                    · exact nrr_set_black.2
                        ⟨nrr_black.2 ⟨hna, hnb1⟩, nrr_black.2 ⟨hnb2, hnr⟩⟩
                    · exact nrr_red.2 ⟨rfl, rfl, nrr_black.2 ⟨hna, hnb1⟩,
                        nrr_black.2 ⟨hnb2, hnr⟩⟩
        · push_neg at hviol
          have hnl2 : no_red_red (add_node_rec v l) = true := by
            refine nrr_of_parts ic2 fun hred => ?_
            obtain ⟨hc1, hc2⟩ := hviol hred
            exact ⟨by simpa using hc1, by simpa using hc2⟩
          obtain ⟨c1, c2⟩ := nrr_cond_false hnl2
          obtain ⟨c4, c3⟩ := nrr_cond_false hnr
          rw [heq, fix_id c1 c2 c3 c4]
          exact ⟨BlackHeight.black ibh hbr, nrr_set_black.2 ⟨hnl2, hnr⟩,
            fun _ => nrr_black.2 ⟨hnl2, hnr⟩⟩
    · by_cases hv2 : v > x
      · have heq : add_node_rec v (.node x l r c) =
            fix_red_black (.node x l (add_node_rec v r) c) := by
          simp [add_node_rec, hv1, hv2]
        cases c with
        | red =>
          obtain ⟨hlred, hrred, _, _⟩ := nrr_red.1 hn
          obtain ⟨hbl, hbr⟩ := bh_red_inv hb
          obtain ⟨ibh, ic2, irr⟩ := ihr hnr hbr
          have hnr2 : no_red_red (add_node_rec v r) = true := irr hrred
          obtain ⟨c1, c2⟩ := nrr_cond_false hnl
          obtain ⟨c4, c3⟩ := nrr_cond_false hnr2
          rw [heq, fix_id c1 c2 c3 c4]
          refine ⟨BlackHeight.red hbl ibh, nrr_set_black.2 ⟨hnl, hnr2⟩, fun hc => ?_⟩
          simp [is_red] at hc
        | black =>
          obtain ⟨m, hm, hbl, hbr⟩ := bh_black_inv hb
          subst hm
          obtain ⟨ibh, ic2, _⟩ := ihr hnr hbr
          obtain ⟨c1, c2⟩ := nrr_cond_false hnl
          by_cases hviol : is_red (add_node_rec v r) = true ∧
              (is_red (left (add_node_rec v r)) = true ∨
               is_red (right (add_node_rec v r)) = true)
          · obtain ⟨hr2red, hchild⟩ := hviol
            cases hE : add_node_rec v r with
            | nil => rw [hE] at hr2red; simp [is_red] at hr2red
            | node ry a b col =>
              rw [hE] at hr2red
              cases col with
              | black => simp [is_red] at hr2red
              | red =>
                rw [hE] at ibh ic2 hchild
                simp only [left, right] at hchild
                obtain ⟨hba, hbb⟩ := bh_red_inv ibh
                obtain ⟨hna, hnb⟩ := nrr_set_black.1 ic2
                by_cases hbB : is_red b = true
                · cases hB : b with
                  | nil => rw [hB] at hbB; simp [is_red] at hbB
                  | node dz d1 d2 dcol =>
                    rw [hB] at hbB
                    cases dcol with
                    | black => simp [is_red] at hbB
                    | red =>
                      rw [hB] at hbb hnb
                      obtain ⟨hbd1, hbd2⟩ := bh_red_inv hbb
                      obtain ⟨_, _, hnd1, hnd2⟩ := nrr_red.1 hnb
                      rw [heq, hE, hB, fix_right3 c1 c2]
                      refine ⟨?_, ?_, fun _ => ?_⟩
                      · exact BlackHeight.red (BlackHeight.black hbl hba)
                          (BlackHeight.black hbd1 hbd2)
                      · exact nrr_set_black.2
                          ⟨nrr_black.2 ⟨hnl, hna⟩, nrr_black.2 ⟨hnd1, hnd2⟩⟩
                      · exact nrr_red.2 ⟨rfl, rfl, nrr_black.2 ⟨hnl, hna⟩,
                          nrr_black.2 ⟨hnd1, hnd2⟩⟩
                · have hb2 : is_red b = false := by simpa using hbB
                  have hared : is_red a = true := by
                    rcases hchild with hc | hc
                    · exact hc
                    · exact absurd hc hbB
                  cases hA : a with
                  | nil => rw [hA] at hared; simp [is_red] at hared
                  | node cz c1t c2t ccol =>
                    rw [hA] at hared
                    cases ccol with
                    | black => simp [is_red] at hared
                    | red =>
                      rw [hA] at hba hna
                      obtain ⟨hbc1, hbc2⟩ := bh_red_inv hba
                      obtain ⟨_, _, hnc1, hnc2⟩ := nrr_red.1 hna
                      rw [heq, hE, hA, fix_right4 c1 c2 hb2]
                      refine ⟨?_, ?_, fun _ => ?_⟩
                      · exact BlackHeight.red (BlackHeight.black hbl hbc1)
                          (BlackHeight.black hbc2 hbb)
                      · exact nrr_set_black.2
                          ⟨nrr_black.2 ⟨hnl, hnc1⟩, nrr_black.2 ⟨hnc2, hnb⟩⟩
                      · exact nrr_red.2 ⟨rfl, rfl, nrr_black.2 ⟨hnl, hnc1⟩,
                          nrr_black.2 ⟨hnc2, hnb⟩⟩
          · push_neg at hviol
            have hnr2 : no_red_red (add_node_rec v r) = true := by
              refine nrr_of_parts ic2 fun hred => ?_
              obtain ⟨hc1, hc2⟩ := hviol hred
              exact ⟨by simpa using hc1, by simpa using hc2⟩
            obtain ⟨c4, c3⟩ := nrr_cond_false hnr2
            rw [heq, fix_id c1 c2 c3 c4]
            exact ⟨BlackHeight.black hbl ibh, nrr_set_black.2 ⟨hnl, hnr2⟩,
              fun _ => nrr_black.2 ⟨hnl, hnr2⟩⟩
      · have heq : add_node_rec v (.node x l r c) = .node x l r c := by
          simp [add_node_rec, hv1, hv2]
        rw [heq]
        exact ⟨hb, nrr_set_black.2 ⟨hnl, hnr⟩, fun _ => hn⟩

end RB

/-- C2: starting from any valid red-black tree (empty included), after
`add_node` (recursive insertion with the four-pattern repair of
`fix_red_black` on every unwind step — rotations modelled from the spec since
the rb_bst.c rotation bodies are TODO placeholders — followed by the
unconditional blackening of the root) no red node has a red child, every path
from the root to an empty-subtree position crosses the same number of black
nodes, and the root is black. -/
theorem claim_C2 (v : Int) (t : RB.Tree) (h : RB.valid_rb t) :
    RB.valid_rb (RB.add_node v t) := by
  obtain ⟨hnrr, ⟨n, hbh⟩, _⟩ := h
  obtain ⟨ibh, ic2, _⟩ := RB.add_rec_inv v hnrr hbh
  exact ⟨ic2, RB.bh_set_black ibh, RB.is_red_set_black _⟩

/-- Witness for C2 at a concrete input: inserting 5 into the empty (valid)
red-black tree yields a valid red-black tree. -/
theorem claim_C2_witness : RB.valid_rb (RB.add_node 5 .nil) :=
  claim_C2 5 .nil ⟨rfl, ⟨0, .nil⟩, rfl⟩

/-! ## AVL balance machinery (claim C1) -/

namespace AVL

theorem rheight_node {x h : Int} {l r : Tree} :
    rheight (.node x h l r) = 1 + max (rheight l) (rheight r) := rfl

theorem rheight_ge : ∀ t : Tree, -1 ≤ rheight t := by
  intro t
  induction t with
  | nil => simp [rheight]
  | node x h l r ihl ihr =>
    have h1 := le_max_left (rheight l) (rheight r)
    rw [rheight_node]
    omega

theorem avl_ok_node {x h : Int} {l r : Tree} :
    avl_ok (.node x h l r) = true ↔
      h = 1 + max (rheight l) (rheight r) ∧
      rheight l - rheight r ≤ 1 ∧ rheight r - rheight l ≤ 1 ∧
      avl_ok l = true ∧ avl_ok r = true := by
  simp only [avl_ok, Bool.and_eq_true, decide_eq_true_eq, and_assoc]

theorem bth_eq : ∀ {t : Tree}, avl_ok t = true → binary_tree_height t = rheight t := by
  intro t h
  cases t with
  | nil => rfl
  | node x hh l r =>
    have h1 := (avl_ok_node.1 h).1
    simp [binary_tree_height, rheight_node, h1]

theorem ne_nil_of_rheight {t : Tree} (h : 0 ≤ rheight t) : t ≠ .nil := by
  intro he
  rw [he] at h
  simp [rheight] at h

theorem rot_right_node {x hh lx lh2 : Int} {ll lr r : Tree} :
    bst_rotate_right (.node x hh (.node lx lh2 ll lr) r) =
      .node lx (1 + max (binary_tree_height ll)
          (1 + max (binary_tree_height lr) (binary_tree_height r))) ll
        (.node x (1 + max (binary_tree_height lr) (binary_tree_height r)) lr r) := rfl

theorem rot_left_node {x hh rx rh2 : Int} {l rl rr : Tree} :
    bst_rotate_left (.node x hh l (.node rx rh2 rl rr)) =
      .node rx (1 + max (1 + max (binary_tree_height l) (binary_tree_height rl))
          (binary_tree_height rr))
        (.node x (1 + max (binary_tree_height l) (binary_tree_height rl)) l rl) rr := rfl

theorem add_fix_balanced {v x h : Int} {l r : Tree}
    (h1 : ¬ binary_tree_height l - binary_tree_height r > 1)
    (h2 : ¬ binary_tree_height r - binary_tree_height l > 1) :
    add_fix v (.node x h l r) =
      .node x (1 + max (binary_tree_height l) (binary_tree_height r)) l r := by
  simp [add_fix, h1, h2]

theorem add_fix_imbL {v x h lx lh2 : Int} {ll lr r : Tree}
    (hcond : binary_tree_height (.node lx lh2 ll lr) - binary_tree_height r > 1)
    (hv : ¬ v > lx) :
    add_fix v (.node x h (.node lx lh2 ll lr) r) =
      bst_rotate_right (.node x
        (1 + max (binary_tree_height (.node lx lh2 ll lr)) (binary_tree_height r))
        (.node lx lh2 ll lr) r) := by
  simp [add_fix, hcond, hv]

theorem add_fix_imbL2 {v x h lx lh2 : Int} {ll lr r : Tree}
    (hcond : binary_tree_height (.node lx lh2 ll lr) - binary_tree_height r > 1)
    (hv : v > lx) :
    add_fix v (.node x h (.node lx lh2 ll lr) r) =
      bst_rotate_right (.node x
        (1 + max (binary_tree_height (.node lx lh2 ll lr)) (binary_tree_height r))
        (bst_rotate_left (.node lx lh2 ll lr)) r) := by
  simp [add_fix, hcond, hv]

theorem add_fix_imbR {v x h rx rh2 : Int} {l rl rr : Tree}
    (hcond1 : ¬ binary_tree_height l - binary_tree_height (.node rx rh2 rl rr) > 1)
    (hcond : binary_tree_height (.node rx rh2 rl rr) - binary_tree_height l > 1)
    (hv : ¬ v < rx) :
    add_fix v (.node x h l (.node rx rh2 rl rr)) =
      bst_rotate_left (.node x
        (1 + max (binary_tree_height l) (binary_tree_height (.node rx rh2 rl rr)))
        l (.node rx rh2 rl rr)) := by
  simp [add_fix, hcond1, hcond, hv]

theorem add_fix_imbR2 {v x h rx rh2 : Int} {l rl rr : Tree}
    (hcond1 : ¬ binary_tree_height l - binary_tree_height (.node rx rh2 rl rr) > 1)
    (hcond : binary_tree_height (.node rx rh2 rl rr) - binary_tree_height l > 1)
    (hv : v < rx) :
    add_fix v (.node x h l (.node rx rh2 rl rr)) =
      bst_rotate_left (.node x
        (1 + max (binary_tree_height l) (binary_tree_height (.node rx rh2 rl rr)))
        l (bst_rotate_right (.node rx rh2 rl rr))) := by
  simp [add_fix, hcond1, hcond, hv]

theorem remove_fix_balanced {x h : Int} {l r : Tree}
    (h1 : ¬ binary_tree_height l - binary_tree_height r > 1)
    (h2 : ¬ binary_tree_height r - binary_tree_height l > 1) :
    remove_fix (.node x h l r) =
      .node x (1 + max (binary_tree_height l) (binary_tree_height r)) l r := by
  simp [remove_fix, h1, h2]

theorem remove_fix_imbL1 {x h lx lh2 : Int} {ll lr r : Tree}
    (hcond : binary_tree_height (.node lx lh2 ll lr) - binary_tree_height r > 1)
    (htie : binary_tree_height ll ≥ binary_tree_height lr) :
    remove_fix (.node x h (.node lx lh2 ll lr) r) =
      bst_rotate_right (.node x
        (1 + max (binary_tree_height (.node lx lh2 ll lr)) (binary_tree_height r))
        (.node lx lh2 ll lr) r) := by
  simp [remove_fix, hcond, htie]

theorem remove_fix_imbL2 {x h lx lh2 : Int} {ll lr r : Tree}
    (hcond : binary_tree_height (.node lx lh2 ll lr) - binary_tree_height r > 1)
    (htie : ¬ binary_tree_height ll ≥ binary_tree_height lr) :
    remove_fix (.node x h (.node lx lh2 ll lr) r) =
      bst_rotate_right (.node x
        (1 + max (binary_tree_height (.node lx lh2 ll lr)) (binary_tree_height r))
        (bst_rotate_left (.node lx lh2 ll lr)) r) := by
  simp [remove_fix, hcond, htie]

theorem remove_fix_imbR1 {x h rx rh2 : Int} {l rl rr : Tree}
    (hcond1 : ¬ binary_tree_height l - binary_tree_height (.node rx rh2 rl rr) > 1)
    (hcond : binary_tree_height (.node rx rh2 rl rr) - binary_tree_height l > 1)
    (htie : binary_tree_height rr ≥ binary_tree_height rl) :
    remove_fix (.node x h l (.node rx rh2 rl rr)) =
      bst_rotate_left (.node x
        (1 + max (binary_tree_height l) (binary_tree_height (.node rx rh2 rl rr)))
        l (.node rx rh2 rl rr)) := by
  simp [remove_fix, hcond1, hcond, htie]

theorem remove_fix_imbR2 {x h rx rh2 : Int} {l rl rr : Tree}
    (hcond1 : ¬ binary_tree_height l - binary_tree_height (.node rx rh2 rl rr) > 1)
    (hcond : binary_tree_height (.node rx rh2 rl rr) - binary_tree_height l > 1)
    (htie : ¬ binary_tree_height rr ≥ binary_tree_height rl) :
    remove_fix (.node x h l (.node rx rh2 rl rr)) =
      bst_rotate_left (.node x
        (1 + max (binary_tree_height l) (binary_tree_height (.node rx rh2 rl rr)))
        l (bst_rotate_right (.node rx rh2 rl rr))) := by
  simp [remove_fix, hcond1, hcond, htie]

end AVL

namespace AVL

theorem remove_fix_ok {x h : Int} {l r : Tree}
    (hokl : avl_ok l = true) (hokr : avl_ok r = true)
    (hb1 : rheight l - rheight r ≤ 2) (hb2 : rheight r - rheight l ≤ 2) :
    avl_ok (remove_fix (.node x h l r)) = true ∧
    (rheight (remove_fix (.node x h l r)) = 1 + max (rheight l) (rheight r) ∨
     (rheight (remove_fix (.node x h l r)) = max (rheight l) (rheight r) ∧
      (rheight l - rheight r = 2 ∨ rheight r - rheight l = 2))) := by
  have hgl := rheight_ge l
  have hgr := rheight_ge r
  by_cases h1 : rheight l - rheight r > 1
  · have hlge : 0 ≤ rheight l := by omega
    cases l with
    | nil => simp [rheight] at hlge
    | node lx lh2 ll lr =>
      obtain ⟨hsl, hbl1, hbl2, hokll, hoklr⟩ := avl_ok_node.1 hokl
      have hcond : binary_tree_height (.node lx lh2 ll lr) - binary_tree_height r > 1 := by
        rw [bth_eq hokl, bth_eq hokr]
        exact h1
      have hgll := rheight_ge ll
      have hglr := rheight_ge lr
      by_cases htie : binary_tree_height ll ≥ binary_tree_height lr
      · rw [bth_eq hokll, bth_eq hoklr] at htie
        rw [remove_fix_imbL1 hcond (by rw [bth_eq hokll, bth_eq hoklr]; exact htie),
          rot_right_node, bth_eq hokll, bth_eq hoklr, bth_eq hokr]
        refine ⟨avl_ok_node.2 ⟨?_, ?_, ?_, hokll,
          avl_ok_node.2 ⟨rfl, ?_, ?_, hoklr, hokr⟩⟩, ?_⟩ <;>
          (try simp only [rheight_node] at *) <;>
          first
          | omega
          | exact Or.inl trivial
      · rw [bth_eq hokll, bth_eq hoklr] at htie
        have hlrge : 0 ≤ rheight lr := by omega
        cases lr with
        | nil => simp [rheight] at hlrge
        | node lrx lrh2 p q =>
          obtain ⟨hslr, hblr1, hblr2, hokp, hokq⟩ := avl_ok_node.1 hoklr
          have hgp := rheight_ge p
          have hgq := rheight_ge q
          rw [remove_fix_imbL2 hcond (by rw [bth_eq hokll, bth_eq hoklr]; omega),
            rot_left_node, rot_right_node]
          rw [show binary_tree_height (Tree.node lx (1 + max (binary_tree_height ll)
              (binary_tree_height p)) ll p) = 1 + max (binary_tree_height ll)
              (binary_tree_height p) from rfl]
          rw [bth_eq hokll, bth_eq hokp, bth_eq hokq, bth_eq hokr]
          refine ⟨avl_ok_node.2 ⟨?_, ?_, ?_,
            avl_ok_node.2 ⟨rfl, ?_, ?_, hokll, hokp⟩,
            avl_ok_node.2 ⟨rfl, ?_, ?_, hokq, hokr⟩⟩, ?_⟩ <;>
            (try simp only [rheight_node] at *) <;>
            first
            | omega
            | exact Or.inl trivial
  · by_cases h2 : rheight r - rheight l > 1
    · have hrge : 0 ≤ rheight r := by omega
      cases r with
      | nil => simp [rheight] at hrge
      | node rx rh2 rl rr =>
        obtain ⟨hsr, hbr1, hbr2, hokrl, hokrr⟩ := avl_ok_node.1 hokr
        have hcond1 : ¬ binary_tree_height l - binary_tree_height (.node rx rh2 rl rr) > 1 := by
          rw [bth_eq hokl, bth_eq hokr]
          exact h1
        have hcond : binary_tree_height (.node rx rh2 rl rr) - binary_tree_height l > 1 := by
          rw [bth_eq hokl, bth_eq hokr]
          exact h2
        have hgrl := rheight_ge rl
        have hgrr := rheight_ge rr
        by_cases htie : binary_tree_height rr ≥ binary_tree_height rl
        · rw [bth_eq hokrl, bth_eq hokrr] at htie
          rw [remove_fix_imbR1 hcond1 hcond (by rw [bth_eq hokrl, bth_eq hokrr]; exact htie),
            rot_left_node, bth_eq hokrl, bth_eq hokrr, bth_eq hokl]
          refine ⟨avl_ok_node.2 ⟨?_, ?_, ?_,
            avl_ok_node.2 ⟨rfl, ?_, ?_, hokl, hokrl⟩, hokrr⟩, ?_⟩ <;>
            (try simp only [rheight_node] at *) <;>
            first
            | omega
            | exact Or.inl trivial
        · rw [bth_eq hokrl, bth_eq hokrr] at htie
          have hrlge : 0 ≤ rheight rl := by omega
          cases rl with
          | nil => simp [rheight] at hrlge
          | node rlx rlh2 p q =>
            obtain ⟨hsrl, hbrl1, hbrl2, hokp, hokq⟩ := avl_ok_node.1 hokrl
            have hgp := rheight_ge p
            have hgq := rheight_ge q
            rw [remove_fix_imbR2 hcond1 hcond (by rw [bth_eq hokrl, bth_eq hokrr]; omega),
              rot_right_node, rot_left_node]
            rw [show binary_tree_height (Tree.node rx (1 + max (binary_tree_height q)
                (binary_tree_height rr)) q rr) = 1 + max (binary_tree_height q)
                (binary_tree_height rr) from rfl]
            rw [bth_eq hokp, bth_eq hokq, bth_eq hokrr, bth_eq hokl]
            refine ⟨avl_ok_node.2 ⟨?_, ?_, ?_,
              avl_ok_node.2 ⟨rfl, ?_, ?_, hokl, hokp⟩,
              avl_ok_node.2 ⟨rfl, ?_, ?_, hokq, hokrr⟩⟩, ?_⟩ <;>
              (try simp only [rheight_node] at *) <;>
              first
              | omega
              | exact Or.inl trivial
    · rw [remove_fix_balanced (by rw [bth_eq hokl, bth_eq hokr]; exact h1)
        (by rw [bth_eq hokl, bth_eq hokr]; exact h2)]
      rw [bth_eq hokl, bth_eq hokr]
      refine ⟨avl_ok_node.2 ⟨rfl, by omega, by omega, hokl, hokr⟩, ?_⟩
      simp only [rheight_node]
      exact Or.inl trivial

end AVL

namespace AVL

theorem remove_fix_self {t : Tree} (h : avl_ok t = true) : remove_fix t = t := by
  cases t with
  | nil => rfl
  | node x hh l r =>
    obtain ⟨hs, hb1, hb2, hokl, hokr⟩ := avl_ok_node.1 h
    rw [remove_fix_balanced (by rw [bth_eq hokl, bth_eq hokr]; omega)
      (by rw [bth_eq hokl, bth_eq hokr]; omega), bth_eq hokl, bth_eq hokr, ← hs]

theorem remove_ok : ∀ (v : Int) {t : Tree}, avl_ok t = true →
    avl_ok (remove_node v t) = true ∧
    (rheight (remove_node v t) = rheight t ∨
     rheight (remove_node v t) = rheight t - 1) := by
  intro v t
  induction t generalizing v with
  | nil => intro h; exact ⟨h, Or.inl rfl⟩
  | node x hh l r ihl ihr =>
    intro hok
    obtain ⟨hs, hb1, hb2, hokl, hokr⟩ := avl_ok_node.1 hok
    have hgl := rheight_ge l
    have hgr := rheight_ge r
    by_cases h1 : v < x
    · have heq : remove_node v (.node x hh l r) =
          remove_fix (.node x hh (remove_node v l) r) := by
        simp [remove_node, h1]
      obtain ⟨iok, ihh⟩ := ihl v hokl
      obtain ⟨fok, fh⟩ := remove_fix_ok iok hokr (by omega) (by omega)
      rw [heq]
      refine ⟨fok, ?_⟩
      simp only [rheight_node]
      omega
    · by_cases h2 : v > x
      · have heq : remove_node v (.node x hh l r) =
            remove_fix (.node x hh l (remove_node v r)) := by
          simp [remove_node, h1, h2]
        obtain ⟨iok, ihh⟩ := ihr v hokr
        obtain ⟨fok, fh⟩ := remove_fix_ok hokl iok (by omega) (by omega)
        rw [heq]
        refine ⟨fok, ?_⟩
        simp only [rheight_node]
        omega
      · cases l with
        | nil =>
          have heq : remove_node v (.node x hh .nil r) = remove_fix r := by
            simp [remove_node, h1, h2]
          rw [heq, remove_fix_self hokr]
          refine ⟨hokr, ?_⟩
          have hn : rheight (Tree.nil) = -1 := rfl
          simp only [rheight_node] at *
          omega
        | node lx lh2 ll lr =>
          cases r with
          | nil =>
            have heq : remove_node v (.node x hh (.node lx lh2 ll lr) .nil) =
                remove_fix (.node lx lh2 ll lr) := by
              simp [remove_node, h1, h2]
            rw [heq, remove_fix_self hokl]
            refine ⟨hokl, ?_⟩
            have hn : rheight (Tree.nil) = -1 := rfl
            simp only [rheight_node] at *
            omega
          | node rx rh2 rl rr =>
            have heq : remove_node v (.node x hh (.node lx lh2 ll lr) (.node rx rh2 rl rr)) =
                remove_fix (.node (min_value (.node rx rh2 rl rr)) hh (.node lx lh2 ll lr)
                  (remove_node (min_value (.node rx rh2 rl rr)) (.node rx rh2 rl rr))) := by
              simp [remove_node, h1, h2]
            obtain ⟨iok, ihh⟩ := ihr (min_value (.node rx rh2 rl rr)) hokr
            obtain ⟨fok, fh⟩ := remove_fix_ok hokl iok (by omega) (by omega)
            rw [heq]
            refine ⟨fok, ?_⟩
            simp only [rheight_node] at *
            omega

end AVL

namespace AVL

theorem add_ok (v : Int) : ∀ {t : Tree}, avl_ok t = true →
    avl_ok (add_node v t) = true ∧
    (rheight (add_node v t) = rheight t ∨ rheight (add_node v t) = rheight t + 1) ∧
    (∀ y hh2 a b, rheight (add_node v t) = rheight t + 1 → t ≠ .nil →
      add_node v t = .node y hh2 a b →
      ((v < y ∧ rheight a = rheight b + 1) ∨ (y < v ∧ rheight b = rheight a + 1))) := by
  intro t
  induction t with
  | nil =>
    intro _
    have heq : add_node v Tree.nil = .node v 0 .nil .nil := rfl
    rw [heq]
    have hn : rheight Tree.nil = -1 := rfl
    refine ⟨?_, ?_, ?_⟩
    · exact avl_ok_node.2 ⟨by omega, by omega, by omega, rfl, rfl⟩
    · refine Or.inr ?_
      simp only [rheight_node]
      omega
    · intro y hh2 a b _ hne _
      exact absurd rfl hne
  | node x hh l r ihl ihr =>
    intro hok
    obtain ⟨hs, hb1, hb2, hokl, hokr⟩ := avl_ok_node.1 hok
    have hgl := rheight_ge l
    have hgr := rheight_ge r
    by_cases h1 : v < x
    · obtain ⟨iok, igrow, ishape⟩ := ihl hokl
      have heq : add_node v (.node x hh l r) = add_fix v (.node x hh (add_node v l) r) := by
        simp [add_node, h1]
      by_cases hcb : rheight (add_node v l) - rheight r > 1
      · rcases igrow with hg | hg
        · exfalso; omega
        · have hlne : l ≠ Tree.nil := ne_nil_of_rheight (by omega)
          cases hE : add_node v l with
          | nil => rw [hE] at hg; simp [rheight] at hg; omega
          | node ly lh2 a b =>
            rw [hE] at iok hg hcb ishape
            obtain ⟨hsl2, ha1, ha2, hoka, hokb⟩ := avl_ok_node.1 iok
            have hga := rheight_ge a
            have hgb := rheight_ge b
            have hshape := ishape ly lh2 a b hg hlne rfl
            have hcond : binary_tree_height (.node ly lh2 a b) - binary_tree_height r > 1 := by
              rw [bth_eq iok, bth_eq hokr]
              exact hcb
            rcases hshape with ⟨hvly, hab⟩ | ⟨hlyv, hab⟩
            · rw [heq, hE, add_fix_imbL hcond (by omega), rot_right_node,
                bth_eq hoka, bth_eq hokb, bth_eq hokr]
              refine ⟨avl_ok_node.2 ⟨?_, ?_, ?_, hoka,
                avl_ok_node.2 ⟨rfl, ?_, ?_, hokb, hokr⟩⟩, ?_, ?_⟩
              · simp only [rheight_node]
              · simp only [rheight_node] at *
                omega
              · simp only [rheight_node] at *
                omega
              · simp only [rheight_node] at *
                omega
              · simp only [rheight_node] at *
                omega
              · simp only [rheight_node] at *
                omega
              · intro y2 hh3 a2 b2 hg2 _ _
                exfalso
                simp only [rheight_node] at *
                omega
            · have hbne : 0 ≤ rheight b := by
                simp only [rheight_node] at *
                omega
              cases hB : b with
              | nil => rw [hB] at hbne; simp [rheight] at hbne
              | node bz bh2 p q =>
                rw [hB] at hokb hab hsl2 ha1 ha2 hcond hcb hg
                obtain ⟨hsb2, hp1, hp2, hokp, hokq⟩ := avl_ok_node.1 hokb
                have hgp := rheight_ge p
                have hgq := rheight_ge q
                rw [heq, hE, hB, add_fix_imbL2 hcond (by omega), rot_left_node,
                  rot_right_node]
                rw [show binary_tree_height (Tree.node ly (1 + max (binary_tree_height a)
                    (binary_tree_height p)) a p) = 1 + max (binary_tree_height a)
                    (binary_tree_height p) from rfl]
                rw [bth_eq hoka, bth_eq hokp, bth_eq hokq, bth_eq hokr]
                refine ⟨avl_ok_node.2 ⟨?_, ?_, ?_,
                  avl_ok_node.2 ⟨rfl, ?_, ?_, hoka, hokp⟩,
                  avl_ok_node.2 ⟨rfl, ?_, ?_, hokq, hokr⟩⟩, ?_, ?_⟩
                · simp only [rheight_node]
                · simp only [rheight_node] at *
                  omega
                · simp only [rheight_node] at *
                  omega
                · simp only [rheight_node] at *
                  omega
                · simp only [rheight_node] at *
                  omega
                · simp only [rheight_node] at *
                  omega
                · simp only [rheight_node] at *
                  omega
                · simp only [rheight_node] at *
                  omega
                · intro y2 hh3 a2 b2 hg2 _ _
                  exfalso
                  simp only [rheight_node] at *
                  omega
      · by_cases hcb2 : rheight r - rheight (add_node v l) > 1
        · exfalso
          rcases igrow with hg | hg <;> omega
        · rw [heq, add_fix_balanced (by rw [bth_eq iok, bth_eq hokr]; exact hcb)
            (by rw [bth_eq iok, bth_eq hokr]; exact hcb2), bth_eq iok, bth_eq hokr]
          refine ⟨avl_ok_node.2 ⟨rfl, by omega, by omega, iok, hokr⟩, ?_, ?_⟩
          · simp only [rheight_node]
            rcases igrow with hg | hg <;> omega
          · intro y2 hh3 a2 b2 hg2 _ heqq
            simp only [Tree.node.injEq] at heqq
            obtain ⟨e1, _, e3, e4⟩ := heqq
            subst e1 e3 e4
            simp only [rheight_node] at hg2
            refine Or.inl ⟨h1, ?_⟩
            rcases igrow with hg | hg <;> omega
    · by_cases h2 : v > x
      · obtain ⟨iok, igrow, ishape⟩ := ihr hokr
        have heq : add_node v (.node x hh l r) = add_fix v (.node x hh l (add_node v r)) := by
          simp [add_node, h1, h2]
        by_cases hcb : rheight (add_node v r) - rheight l > 1
        · rcases igrow with hg | hg
          · exfalso; omega
          · have hrne : r ≠ Tree.nil := ne_nil_of_rheight (by omega)
            cases hE : add_node v r with
            | nil => rw [hE] at hg; simp [rheight] at hg; omega
            | node ry rh3 a b =>
              rw [hE] at iok hg hcb ishape
              obtain ⟨hsr2, ha1, ha2, hoka, hokb⟩ := avl_ok_node.1 iok
              have hga := rheight_ge a
              have hgb := rheight_ge b
              have hshape := ishape ry rh3 a b hg hrne rfl
              have hcond1 : ¬ binary_tree_height l -
                  binary_tree_height (.node ry rh3 a b) > 1 := by
                rw [bth_eq hokl, bth_eq iok]
                omega
              have hcond : binary_tree_height (.node ry rh3 a b) -
                  binary_tree_height l > 1 := by
                rw [bth_eq hokl, bth_eq iok]
                exact hcb
              rcases hshape with ⟨hvry, hab⟩ | ⟨hryv, hab⟩
              · have hane : 0 ≤ rheight a := by
                  simp only [rheight_node] at *
                  omega
                cases hA : a with
                | nil => rw [hA] at hane; simp [rheight] at hane
                | node az ah2 p q =>
                  rw [hA] at hoka hab hsr2 ha1 ha2 hcond hcond1 hcb hg
                  obtain ⟨hsa2, hp1, hp2, hokp, hokq⟩ := avl_ok_node.1 hoka
                  have hgp := rheight_ge p
                  have hgq := rheight_ge q
                  rw [heq, hE, hA, add_fix_imbR2 hcond1 hcond (by omega), rot_right_node,
                    rot_left_node]
                  rw [show binary_tree_height (Tree.node ry (1 + max (binary_tree_height q)
                      (binary_tree_height b)) q b) = 1 + max (binary_tree_height q)
                      (binary_tree_height b) from rfl]
                  rw [bth_eq hokp, bth_eq hokq, bth_eq hokb, bth_eq hokl]
                  refine ⟨avl_ok_node.2 ⟨?_, ?_, ?_,
                    avl_ok_node.2 ⟨rfl, ?_, ?_, hokl, hokp⟩,
                    avl_ok_node.2 ⟨rfl, ?_, ?_, hokq, hokb⟩⟩, ?_, ?_⟩
                  · simp only [rheight_node]
                  · simp only [rheight_node] at *
                    omega
                  · simp only [rheight_node] at *
                    omega
                  · simp only [rheight_node] at *
                    omega
                  · simp only [rheight_node] at *
                    omega
                  · simp only [rheight_node] at *
                    omega
                  · simp only [rheight_node] at *
                    omega
                  · simp only [rheight_node] at *
                    omega
                  · intro y2 hh3 a2 b2 hg2 _ _
                    exfalso
                    simp only [rheight_node] at *
                    omega
              · rw [heq, hE, add_fix_imbR hcond1 hcond (by omega), rot_left_node,
                  bth_eq hoka, bth_eq hokb, bth_eq hokl]
                refine ⟨avl_ok_node.2 ⟨?_, ?_, ?_,
                  avl_ok_node.2 ⟨rfl, ?_, ?_, hokl, hoka⟩, hokb⟩, ?_, ?_⟩
                · simp only [rheight_node]
                · simp only [rheight_node] at *
                  omega
                · simp only [rheight_node] at *
                  omega
                · simp only [rheight_node] at *
                  omega
                · simp only [rheight_node] at *
                  omega
                · simp only [rheight_node] at *
                  omega
                · intro y2 hh3 a2 b2 hg2 _ _
                  exfalso
                  simp only [rheight_node] at *
                  omega
        · by_cases hcb2 : rheight l - rheight (add_node v r) > 1
          · exfalso
            rcases igrow with hg | hg <;> omega
          · rw [heq, add_fix_balanced (by rw [bth_eq hokl, bth_eq iok]; exact hcb2)
              (by rw [bth_eq hokl, bth_eq iok]; exact hcb), bth_eq hokl, bth_eq iok]
            refine ⟨avl_ok_node.2 ⟨rfl, by omega, by omega, hokl, iok⟩, ?_, ?_⟩
            · simp only [rheight_node]
              rcases igrow with hg | hg <;> omega
            · intro y2 hh3 a2 b2 hg2 _ heqq
              simp only [Tree.node.injEq] at heqq
              obtain ⟨e1, _, e3, e4⟩ := heqq
              subst e1 e3 e4
              simp only [rheight_node] at hg2
              refine Or.inr ⟨by omega, ?_⟩
              rcases igrow with hg | hg <;> omega
      · have hxv : v = x := by omega
        have heq : add_node v (.node x hh l r) = add_fix v (.node x hh l r) := by
          simp [add_node, h1, h2]
        rw [heq, add_fix_balanced (by rw [bth_eq hokl, bth_eq hokr]; omega)
          (by rw [bth_eq hokl, bth_eq hokr]; omega), bth_eq hokl, bth_eq hokr]
        refine ⟨avl_ok_node.2 ⟨rfl, by omega, by omega, hokl, hokr⟩, ?_, ?_⟩
        · exact Or.inl (by simp only [rheight_node])
        · intro y2 hh3 a2 b2 hg2 _ _
          exfalso
          simp only [rheight_node] at hg2
          omega

end AVL

/-- C1: starting from any tree satisfying the AVL invariant (stored height equal
to the recursively-defined height with empty = −1, children heights differing by
at most 1 at every node — the empty tree included), both `add_node` and
`remove_node` of `avl_bst.c` return a tree satisfying the same invariant, so
the invariant holds after every insert and every delete. -/
theorem claim_C1 (v : Int) (t : AVL.Tree) (h : AVL.avl_ok t = true) :
    AVL.avl_ok (AVL.add_node v t) = true ∧ AVL.avl_ok (AVL.remove_node v t) = true :=
  ⟨(AVL.add_ok v h).1, (AVL.remove_ok v h).1⟩

/-- Witness for C1 at a concrete input: inserting 5 into and deleting 5 from
the valid two-node AVL tree `2[h=1] (1[h=0], ·)`. -/
theorem claim_C1_witness :
    AVL.avl_ok (AVL.add_node 5 (.node 2 1 (.node 1 0 .nil .nil) .nil)) = true ∧
    AVL.avl_ok (AVL.remove_node 5 (.node 2 1 (.node 1 0 .nil .nil) .nil)) = true :=
  claim_C1 5 (.node 2 1 (.node 1 0 .nil .nil) .nil) (by decide)

/-! ## Heap machinery (claim C7) -/

namespace Heap

theorem ms_congr {n : Nat} {a b : Int → Int} (h : ∀ j : Nat, j < n → a j = b j) :
    ((List.range n).map (fun j : Nat => a j) : Multiset Int) =
    ((List.range n).map (fun j : Nat => b j) : Multiset Int) := by
  have : (List.range n).map (fun j : Nat => a j) = (List.range n).map (fun j : Nat => b j) :=
    List.map_congr_left fun j hj => h j (List.mem_range.mp hj)
  rw [this]

theorem ms_succ {n : Nat} (a : Int → Int) :
    ((List.range (n + 1)).map (fun j : Nat => a j) : Multiset Int) =
    ((List.range n).map (fun j : Nat => a j) : Multiset Int) + {a n} := by
  rw [List.range_succ, List.map_append, ← Multiset.coe_add]
  rfl

theorem mem_ms {n : Nat} {a : Int → Int} {i : Int} (h0 : 0 ≤ i) (h : i < n) :
    a i ∈ ((List.range n).map (fun j : Nat => a j) : Multiset Int) := by
  have : a i = a (i.toNat : Nat) := by
    rw [Int.toNat_of_nonneg h0]
  rw [this]
  exact Multiset.mem_coe.mpr (List.mem_map_of_mem _ (List.mem_range.mpr (by omega)))

theorem ms_upd {n : Nat} {a : Int → Int} {j : Int} {x : Int} (h0 : 0 ≤ j) (h : j < n) :
    ((List.range n).map (fun k : Nat => upd a j x k) : Multiset Int) =
    x ::ₘ (((List.range n).map (fun k : Nat => a k) : Multiset Int)).erase (a j) := by
  induction n with
  | zero => omega
  | succ n ih =>
    by_cases h2 : j < n
    · have hne : ((n : Nat) : Int) ≠ j := by omega
      rw [ms_succ _, ms_succ a, ih h2]
      have hun : upd a j x (n : Nat) = a n := by
        simp [upd, hne]
      rw [hun, Multiset.cons_add,
        Multiset.erase_add_left_pos _ (mem_ms h0 (by omega))]
    · have hj : j = (n : Int) := by omega
      subst hj
      rw [ms_succ _, ms_succ a]
      have hpre : ((List.range n).map (fun k : Nat => upd a n x k) : Multiset Int) =
          ((List.range n).map (fun k : Nat => a k) : Multiset Int) :=
        ms_congr fun k hk => by
          have : ((k : Nat) : Int) ≠ (n : Int) := by omega
          simp [upd, this]
      rw [hpre]
      have hux : upd a (n : Int) x (n : Nat) = x := by simp [upd]
      have herase : ∀ (M : Multiset Int) (y : Int), (M + {y}).erase y = M := fun M y => by
        rw [add_comm, Multiset.singleton_add, Multiset.erase_cons_head]
      rw [hux, herase, add_comm, Multiset.singleton_add]

theorem swap_val (a : Int → Int) (i p : Int) :
    ∀ j : Int, swap a i p j = if j = p then a i else if j = i then a p else a j := by
  intro j
  simp only [swap, upd]

theorem ms_swap {n : Nat} {a : Int → Int} {i p : Int} (hi0 : 0 ≤ i) (hi : i < n)
    (hp0 : 0 ≤ p) (hp : p < n) :
    ((List.range n).map (fun k : Nat => swap a i p k) : Multiset Int) =
    ((List.range n).map (fun k : Nat => a k) : Multiset Int) := by
  by_cases hip : p = i
  · subst hip
    refine ms_congr fun k hk => ?_
    simp only [swap, upd]
    by_cases h1 : ((k : Nat) : Int) = p <;> simp [h1]
  · have h1 : ((List.range n).map (fun k : Nat => swap a i p k) : Multiset Int) =
        ((List.range n).map (fun k : Nat => upd (upd a i (a p)) p (a i) k) : Multiset Int) :=
      ms_congr fun k _ => rfl
    rw [h1, ms_upd hp0 hp, ms_upd hi0 hi]
    have h2 : upd a i (a p) p = a p := by simp [upd, hip]
    rw [h2, Multiset.erase_cons_head]
    exact Multiset.cons_erase (mem_ms hi0 hi)

theorem swap_fst (a : Int → Int) (i p : Int) : swap a i p p = a i := by
  simp [swap, upd]

theorem swap_snd {i p : Int} (a : Int → Int) (hne : i ≠ p) : swap a i p i = a p := by
  simp [swap, upd, hne]

theorem swap_other {i p j : Int} (a : Int → Int) (h1 : j ≠ p) (h2 : j ≠ i) :
    swap a i p j = a j := by
  simp [swap, upd, h1, h2]

theorem sift_up_done {a : Int → Int} {i n : Int}
    (hg : ¬(0 < i ∧ a i > a ((i - 1) / 2)))
    (hinv1 : ∀ k : Int, 0 < k → k < n → k ≠ i → a ((k - 1) / 2) ≥ a k) :
    ∀ k : Int, 0 < k → k < n → a ((k - 1) / 2) ≥ a k := by
  intro k hk0 hkn
  rcases eq_or_ne k i with hk | hk
  · subst hk
    push_neg at hg
    exact hg hk0
  · exact hinv1 k hk0 hkn hk

theorem sift_up_spec : ∀ (m : Nat) (a : Int → Int) (i n : Int),
    i.toNat ≤ m → 0 ≤ i → i < n →
    (∀ k : Int, 0 < k → k < n → k ≠ i → a ((k - 1) / 2) ≥ a k) →
    (0 < i → ∀ k : Int, 0 < k → k < n → (k - 1) / 2 = i → a ((i - 1) / 2) ≥ a k) →
    (∀ k : Int, 0 < k → k < n → sift_up a i ((k - 1) / 2) ≥ sift_up a i k) ∧
    ((List.range n.toNat).map (fun j : Nat => sift_up a i j) : Multiset Int) =
      ((List.range n.toNat).map (fun j : Nat => a j) : Multiset Int) := by
  intro m
  induction m with
  | zero =>
    intro a i n hm h0 hin hinv1 hinv2
    have hi : i = 0 := by omega
    subst hi
    have hg : ¬((0:Int) < 0 ∧ a 0 > a ((0 - 1) / 2)) := fun hc => absurd hc.1 (lt_irrefl 0)
    have hstep : sift_up a 0 = a := by
      rw [sift_up]
      exact dif_neg hg
    rw [hstep]
    exact ⟨sift_up_done hg hinv1, rfl⟩
  | succ m ih =>
    intro a i n hm h0 hin hinv1 hinv2
    by_cases hg : 0 < i ∧ a i > a ((i - 1) / 2)
    · have hstep : sift_up a i = sift_up (swap a i ((i - 1) / 2)) ((i - 1) / 2) := by
        rw [sift_up]
        exact dif_pos hg
      rw [hstep]
      obtain ⟨hi0, hgt⟩ := hg
      have hp0 : (0:Int) ≤ (i - 1) / 2 := by omega
      have hpi : (i - 1) / 2 < i := by omega
      have hne : i ≠ (i - 1) / 2 := by omega
      have hinv1' : ∀ k : Int, 0 < k → k < n → k ≠ (i - 1) / 2 →
          swap a i ((i - 1) / 2) ((k - 1) / 2) ≥ swap a i ((i - 1) / 2) k := by
        intro k hk0 hkn hkp
        rcases eq_or_ne k i with hk | hk
        · rw [hk, swap_snd a hne, swap_fst]
          exact le_of_lt hgt
        · rcases eq_or_ne ((k - 1) / 2) ((i - 1) / 2) with hpar | hpar
          · rw [hpar, swap_fst, swap_other a hkp hk]
            have h1 := hinv1 k hk0 hkn hk
            rw [hpar] at h1
            exact le_trans h1 (le_of_lt hgt)
          · rcases eq_or_ne ((k - 1) / 2) i with hpar2 | hpar2
            · rw [hpar2, swap_snd a hne, swap_other a hkp hk]
              exact hinv2 hi0 k hk0 hkn hpar2
            · rw [swap_other a hpar hpar2, swap_other a hkp hk]
              exact hinv1 k hk0 hkn hk
      have hinv2' : 0 < (i - 1) / 2 → ∀ k : Int, 0 < k → k < n →
          (k - 1) / 2 = (i - 1) / 2 →
          swap a i ((i - 1) / 2) (((i - 1) / 2 - 1) / 2) ≥ swap a i ((i - 1) / 2) k := by
        intro hpp0 k hk0 hkn hkpar
        have hgp1 : ((i - 1) / 2 - 1) / 2 ≠ (i - 1) / 2 := by omega
        have hgp2 : ((i - 1) / 2 - 1) / 2 ≠ i := by omega
        rw [swap_other a hgp1 hgp2]
        have hpdom : a (((i - 1) / 2 - 1) / 2) ≥ a ((i - 1) / 2) :=
          hinv1 ((i - 1) / 2) hpp0 (by omega) (by omega)
        rcases eq_or_ne k i with hk | hk
        · rw [hk, swap_snd a hne]
          exact hpdom
        · have hknp : k ≠ (i - 1) / 2 := by omega
          rw [swap_other a hknp hk]
          have h1 := hinv1 k hk0 hkn hk
          rw [hkpar] at h1
          exact le_trans h1 hpdom
      have hres := ih (swap a i ((i - 1) / 2)) ((i - 1) / 2) n (by omega) hp0 (by omega)
        hinv1' hinv2'
      refine ⟨hres.1, hres.2.trans ?_⟩
      exact ms_swap h0 (by omega) hp0 (by omega)
    · have hstep : sift_up a i = a := by
        rw [sift_up]
        exact dif_neg hg
      rw [hstep]
      exact ⟨sift_up_done hg hinv1, rfl⟩

theorem heap_add_spec {h : HeapS} {v : Int} (hp : heap_prop h) (hlt : h.nb < heap_max_size) :
    ∃ h' : HeapS, heap_add v h = some h' ∧ heap_prop h' ∧ contents h' = v ::ₘ contents h := by
  obtain ⟨hnb0, hnbM, hheap⟩ := hp
  have hinv1 : ∀ k : Int, 0 < k → k < h.nb + 1 → k ≠ h.nb →
      upd h.arr h.nb v ((k - 1) / 2) ≥ upd h.arr h.nb v k := by
    intro k hk0 hkn hki
    have h1 : upd h.arr h.nb v k = h.arr k := by
      simp [upd, hki]
    have h2 : upd h.arr h.nb v ((k - 1) / 2) = h.arr ((k - 1) / 2) := by
      have hne : (k - 1) / 2 ≠ h.nb := by omega
      simp [upd, hne]
    rw [h1, h2]
    exact hheap k hk0 (by omega)
  have hinv2 : 0 < h.nb → ∀ k : Int, 0 < k → k < h.nb + 1 → (k - 1) / 2 = h.nb →
      upd h.arr h.nb v ((h.nb - 1) / 2) ≥ upd h.arr h.nb v k := by
    intro _ k hk0 hkn hpar
    exact absurd hpar (by omega)
  have hspec := sift_up_spec h.nb.toNat (upd h.arr h.nb v) h.nb (h.nb + 1)
    (by omega) hnb0 (by omega) hinv1 hinv2
  refine ⟨_, by rw [heap_add, if_pos hlt], ⟨(by omega : (0:Int) ≤ h.nb + 1), Int.add_one_le_iff.mpr hlt, ?_⟩, ?_⟩
  · intro k hk0 hkn
    exact hspec.1 k hk0 hkn
  · have hms := hspec.2
    have hn1 : (h.nb + 1).toNat = h.nb.toNat + 1 := by omega
    simp only [contents]
    rw [hms, hn1, ms_succ (upd h.arr h.nb v)]
    have hupd : ∀ j : Nat, j < h.nb.toNat →
        upd h.arr h.nb v ((j : Nat) : Int) = h.arr ((j : Nat) : Int) := by
      intro j hj
      have hne : ((j : Nat) : Int) ≠ h.nb := by omega
      simp [upd, hne]
    rw [ms_congr hupd]
    have hlast : upd h.arr h.nb v ((h.nb.toNat : Nat) : Int) = v := by
      have hcast : ((h.nb.toNat : Nat) : Int) = h.nb := by omega
      simp [upd, hcast]
    rw [hlast, add_comm, Multiset.singleton_add]

theorem root_ge {h : HeapS} (hp : heap_prop h) :
    ∀ (m : Nat) (k : Int), k.toNat ≤ m → 0 ≤ k → k < h.nb → h.arr k ≤ h.arr 0 := by
  intro m
  induction m with
  | zero =>
    intro k hm h0 hn
    have hk : k = 0 := by omega
    rw [hk]
  | succ m ih =>
    intro k hm h0 hn
    rcases eq_or_ne k 0 with hk | hk
    · rw [hk]
    · have h1 : h.arr k ≤ h.arr ((k - 1) / 2) := hp.2.2 k (by omega) hn
      have h2 : h.arr ((k - 1) / 2) ≤ h.arr 0 := ih ((k - 1) / 2) (by omega) (by omega) (by omega)
      exact le_trans h1 h2

theorem mem_le_root {h : HeapS} (hp : heap_prop h) {x : Int} (hx : x ∈ contents h) :
    x ≤ h.arr 0 := by
  simp only [contents, Multiset.mem_coe, List.mem_map] at hx
  obtain ⟨j, hj, hxe⟩ := hx
  rw [← hxe]
  have hjr := List.mem_range.mp hj
  exact root_ge hp (j + 1) j (by omega) (by omega) (by omega)

theorem sift_down_out {a : Int → Int} {n : Int} {i : Nat} (hni : ¬ ((i : Int) < n)) :
    sift_down a n i = a := by
  rw [sift_down]
  exact dif_neg hni

theorem sift_down_step (a : Int → Int) (n : Int) (i : Nat) (hin : (i : Int) < n) :
    (sift_down a n i = a ∧
      ∀ c : Nat, (c = i * 2 + 1 ∨ c = i * 2 + 2) → ((c : Nat) : Int) < n →
        a ((i : Nat) : Int) ≥ a ((c : Nat) : Int)) ∨
    (∃ g : Nat, sift_down a n i = sift_down (swap a ((i : Nat) : Int) ((g : Nat) : Int)) n g ∧
      (g = i * 2 + 1 ∨ g = i * 2 + 2) ∧ ((g : Nat) : Int) < n ∧
      a ((g : Nat) : Int) > a ((i : Nat) : Int) ∧
      ∀ c : Nat, (c = i * 2 + 1 ∨ c = i * 2 + 2) → ((c : Nat) : Int) < n →
        a ((g : Nat) : Int) ≥ a ((c : Nat) : Int)) := by
  have hstep : sift_down a n i =
      (let li : Nat := i * 2 + 1
       let ri : Nat := i * 2 + 2
       let g0 : Nat := if (li : Int) < n ∧ a li > a i then li else i
       let g1 : Nat := if (ri : Int) < n ∧ a ri > a g0 then ri else g0
       if g1 = i then a else sift_down (swap a i g1) n g1) := by
    rw [sift_down]
    rw [dif_pos hin]
    rfl
  simp only [] at hstep
  by_cases hc1 : ((i * 2 + 1 : Nat) : Int) < n ∧ a ((i * 2 + 1 : Nat) : Int) > a ((i : Nat) : Int)
  · rw [if_pos hc1] at hstep
    by_cases hc2 : ((i * 2 + 2 : Nat) : Int) < n ∧
        a ((i * 2 + 2 : Nat) : Int) > a ((i * 2 + 1 : Nat) : Int)
    · rw [if_pos hc2, if_neg (by omega : ¬(i * 2 + 2 = i))] at hstep
      refine Or.inr ⟨i * 2 + 2, hstep, Or.inr rfl, hc2.1, lt_trans hc1.2 hc2.2, ?_⟩
      intro c hc hcn
      rcases hc with hc | hc
      · rw [hc]
        exact le_of_lt hc2.2
      · rw [hc]
    · rw [if_neg hc2, if_neg (by omega : ¬(i * 2 + 1 = i))] at hstep
      refine Or.inr ⟨i * 2 + 1, hstep, Or.inl rfl, hc1.1, hc1.2, ?_⟩
      intro c hc hcn
      rcases hc with hc | hc
      · rw [hc]
      · rw [hc]
        push_neg at hc2
        exact hc2 (by rw [← hc]; exact hcn)
  · rw [if_neg hc1] at hstep
    by_cases hc2 : ((i * 2 + 2 : Nat) : Int) < n ∧ a ((i * 2 + 2 : Nat) : Int) > a ((i : Nat) : Int)
    · rw [if_pos hc2, if_neg (by omega : ¬(i * 2 + 2 = i))] at hstep
      refine Or.inr ⟨i * 2 + 2, hstep, Or.inr rfl, hc2.1, hc2.2, ?_⟩
      intro c hc hcn
      rcases hc with hc | hc
      · rw [hc]
        push_neg at hc1
        exact le_trans (hc1 (by rw [← hc]; exact hcn)) (le_of_lt hc2.2)
      · rw [hc]
    · rw [if_neg hc2, if_pos rfl] at hstep
      refine Or.inl ⟨hstep, ?_⟩
      intro c hc hcn
      push_neg at hc1 hc2
      rcases hc with hc | hc
      · rw [hc]
        exact hc1 (by rw [← hc]; exact hcn)
      · rw [hc]
        exact hc2 (by rw [← hc]; exact hcn)

theorem sift_down_vac {a : Int → Int} {n : Int} {i : Nat} (hni : ¬ ((i : Int) < n))
    (hinv1 : ∀ k : Int, 0 < k → k < n → (k - 1) / 2 ≠ (i : Int) → a ((k - 1) / 2) ≥ a k) :
    ∀ k : Int, 0 < k → k < n → a ((k - 1) / 2) ≥ a k := by
  intro k hk0 hkn
  exact hinv1 k hk0 hkn (by omega)

theorem sift_down_done {a : Int → Int} {n : Int} {i : Nat}
    (hinv1 : ∀ k : Int, 0 < k → k < n → (k - 1) / 2 ≠ (i : Int) → a ((k - 1) / 2) ≥ a k)
    (hdone : ∀ c : Nat, (c = i * 2 + 1 ∨ c = i * 2 + 2) → ((c : Nat) : Int) < n →
      a ((i : Nat) : Int) ≥ a ((c : Nat) : Int)) :
    ∀ k : Int, 0 < k → k < n → a ((k - 1) / 2) ≥ a k := by
  intro k hk0 hkn
  rcases eq_or_ne ((k - 1) / 2) ((i : Nat) : Int) with hpar | hpar
  · have hk2 : k = ((i : Nat) : Int) * 2 + 1 ∨ k = ((i : Nat) : Int) * 2 + 2 := by omega
    rw [hpar]
    rcases hk2 with hk2 | hk2
    · have hres := hdone (i * 2 + 1) (Or.inl rfl) (by omega)
      rw [hk2]
      push_cast at hres ⊢
      exact hres
    · have hres := hdone (i * 2 + 2) (Or.inr rfl) (by omega)
      rw [hk2]
      push_cast at hres ⊢
      exact hres
  · exact hinv1 k hk0 hkn hpar

theorem sift_down_spec : ∀ (m : Nat) (a : Int → Int) (n : Int) (i : Nat),
    (n - (i : Int)).toNat ≤ m →
    (∀ k : Int, 0 < k → k < n → (k - 1) / 2 ≠ (i : Int) → a ((k - 1) / 2) ≥ a k) →
    (0 < (i : Int) → ∀ k : Int, 0 < k → k < n → (k - 1) / 2 = (i : Int) →
      a (((i : Int) - 1) / 2) ≥ a k) →
    (∀ k : Int, 0 < k → k < n → sift_down a n i ((k - 1) / 2) ≥ sift_down a n i k) ∧
    ((List.range n.toNat).map (fun j : Nat => sift_down a n i j) : Multiset Int) =
      ((List.range n.toNat).map (fun j : Nat => a j) : Multiset Int) := by
  intro m
  induction m with
  | zero =>
    intro a n i hm hinv1 hinv2
    have hni : ¬ ((i : Int) < n) := by omega
    rw [sift_down_out hni]
    exact ⟨sift_down_vac hni hinv1, rfl⟩
  | succ m ih =>
    intro a n i hm hinv1 hinv2
    by_cases hin : (i : Int) < n
    · rcases sift_down_step a n i hin with ⟨hstep, hdone⟩ | ⟨g, hstep, hgc, hgn, hgt, hdom⟩
      · rw [hstep]
        exact ⟨sift_down_done hinv1 hdone, rfl⟩
      · rw [hstep]
        have hgi : ((i : Nat) : Int) < ((g : Nat) : Int) := by omega
        have hig : ((i : Nat) : Int) ≠ ((g : Nat) : Int) := by omega
        have hparg : ((((g : Nat) : Int)) - 1) / 2 = ((i : Nat) : Int) := by omega
        have hinv1' : ∀ k : Int, 0 < k → k < n → (k - 1) / 2 ≠ ((g : Nat) : Int) →
            swap a ((i : Nat) : Int) ((g : Nat) : Int) ((k - 1) / 2) ≥
              swap a ((i : Nat) : Int) ((g : Nat) : Int) k := by
          intro k hk0 hkn hkg
          rcases eq_or_ne k ((i : Nat) : Int) with hk | hk
          · rw [hk, swap_snd a hig]
            have hpar1 : ((((i : Nat) : Int) - 1) / 2) ≠ ((g : Nat) : Int) := by omega
            have hpar2 : ((((i : Nat) : Int) - 1) / 2) ≠ ((i : Nat) : Int) := by omega
            rw [swap_other a hpar1 hpar2]
            exact hinv2 (by omega) ((g : Nat) : Int) (by omega) hgn hparg
          · rcases eq_or_ne k ((g : Nat) : Int) with hkg2 | hkg2
            · rw [hkg2, swap_fst, hparg, swap_snd a hig]
              exact le_of_lt hgt
            · rw [swap_other a hkg2 hk]
              rcases eq_or_ne ((k - 1) / 2) ((i : Nat) : Int) with hpar | hpar
              · rw [hpar, swap_snd a hig]
                have hk2 : k = ((i : Nat) : Int) * 2 + 1 ∨
                    k = ((i : Nat) : Int) * 2 + 2 := by omega
                rcases hk2 with hk2 | hk2
                · have hres := hdom (i * 2 + 1) (Or.inl rfl) (by omega)
                  rw [hk2]
                  push_cast at hres ⊢
                  exact hres
                · have hres := hdom (i * 2 + 2) (Or.inr rfl) (by omega)
                  rw [hk2]
                  push_cast at hres ⊢
                  exact hres
              · rw [swap_other a hkg hpar]
                exact hinv1 k hk0 hkn hpar
        have hinv2' : 0 < ((g : Nat) : Int) → ∀ k : Int, 0 < k → k < n →
            (k - 1) / 2 = ((g : Nat) : Int) →
            swap a ((i : Nat) : Int) ((g : Nat) : Int) ((((g : Nat) : Int) - 1) / 2) ≥
              swap a ((i : Nat) : Int) ((g : Nat) : Int) k := by
          intro hg0 k hk0 hkn hkpar
          rw [hparg, swap_snd a hig]
          have hki : k ≠ ((i : Nat) : Int) := by omega
          have hkg : k ≠ ((g : Nat) : Int) := by omega
          rw [swap_other a hkg hki]
          have h1 := hinv1 k hk0 hkn (by omega)
          rw [hkpar] at h1
          exact h1
        have hres := ih (swap a ((i : Nat) : Int) ((g : Nat) : Int)) n g (by omega)
          hinv1' hinv2'
        refine ⟨hres.1, hres.2.trans ?_⟩
        exact ms_swap (by omega) (by omega) (by omega) (by omega)
    · rw [sift_down_out hin]
      exact ⟨sift_down_vac hin hinv1, rfl⟩

theorem heap_remove_spec {h : HeapS} (hp : heap_prop h) (hnb : 0 < h.nb) :
    heap_prop (heap_remove h) ∧ contents (heap_remove h) = (contents h).erase (h.arr 0) := by
  obtain ⟨hnb0, hnbM, hheap⟩ := hp
  have hinv1 : ∀ k : Int, 0 < k → k < h.nb - 1 → (k - 1) / 2 ≠ ((0 : Nat) : Int) →
      upd h.arr 0 (h.arr (h.nb - 1)) ((k - 1) / 2) ≥ upd h.arr 0 (h.arr (h.nb - 1)) k := by
    intro k hk0 hkn hpar
    have h1 : upd h.arr 0 (h.arr (h.nb - 1)) k = h.arr k := by
      have hne : k ≠ 0 := by omega
      simp [upd, hne]
    have h2 : upd h.arr 0 (h.arr (h.nb - 1)) ((k - 1) / 2) = h.arr ((k - 1) / 2) := by
      have hne : (k - 1) / 2 ≠ 0 := by omega
      simp [upd, hne]
    rw [h1, h2]
    exact hheap k hk0 (by omega)
  have hinv2 : 0 < ((0 : Nat) : Int) → ∀ k : Int, 0 < k → k < h.nb - 1 →
      (k - 1) / 2 = ((0 : Nat) : Int) →
      upd h.arr 0 (h.arr (h.nb - 1)) ((((0 : Nat) : Int) - 1) / 2) ≥
        upd h.arr 0 (h.arr (h.nb - 1)) k := by
    intro h0
    exact absurd h0 (by omega)
  have hspec := sift_down_spec (h.nb - 1).toNat (upd h.arr 0 (h.arr (h.nb - 1))) (h.nb - 1) 0
    (by omega) hinv1 hinv2
  refine ⟨⟨?_, ?_, ?_⟩, ?_⟩
  · show (0 : Int) ≤ h.nb - 1
    omega
  · show h.nb - 1 ≤ heap_max_size
    exact le_trans (by omega) hnbM
  · intro k hk0 hkn
    exact hspec.1 k hk0 hkn
  · show ((List.range (h.nb - 1).toNat).map
        (fun j : Nat => sift_down (upd h.arr 0 (h.arr (h.nb - 1))) (h.nb - 1) 0 j) :
        Multiset Int) = (contents h).erase (h.arr 0)
    rw [hspec.2]
    have hN : (((h.nb - 1).toNat : Nat) : Int) = h.nb - 1 := by omega
    have hsucc : h.nb.toNat = (h.nb - 1).toNat + 1 := by omega
    simp only [contents]
    rw [hsucc, ms_succ h.arr, hN]
    rcases Nat.eq_zero_or_pos (h.nb - 1).toNat with hz | hpos
    · have hnb1 : h.nb - 1 = 0 := by omega
      rw [hz, hnb1]
      simp [Multiset.erase_cons_head]
    · rw [Multiset.erase_add_left_pos _ (mem_ms le_rfl (by omega))]
      rw [ms_upd le_rfl (by omega)]
      rw [← Multiset.singleton_add, add_comm]

theorem max_spec {acc : List Int} {mx : Int} (h : acc.max? = some mx) :
    mx ∈ acc ∧ ∀ x ∈ acc, x ≤ mx := by
  haveI : Std.Antisymm ((· : Int) ≤ ·) := ⟨fun {_ _} h1 h2 => le_antisymm h1 h2⟩
  rw [List.max?_eq_some_iff (fun a => le_refl a) (fun a b => max_choice a b)
    (fun a b c => max_le_iff)] at h
  exact h

theorem run_ledger : ∀ (ops : List HOp) (h : HeapS) (acc acc' : List Int),
    heap_prop h → contents h = (acc : Multiset Int) → ledger ops acc = some acc' →
    ∃ h', run ops h = some h' ∧ heap_prop h' ∧ contents h' = (acc' : Multiset Int) := by
  intro ops
  induction ops with
  | nil =>
    intro h acc acc' hp hc hl
    simp only [ledger, Option.some_inj] at hl
    subst hl
    exact ⟨h, rfl, hp, hc⟩
  | cons op ops ih =>
    intro h acc acc' hp hc hl
    cases op with
    | add v =>
      simp only [ledger] at hl
      by_cases hcap : ((acc.length : Nat) : Int) < heap_max_size
      · rw [if_pos hcap] at hl
        have hcard : h.nb.toNat = acc.length := by
          have hcd := congrArg Multiset.card hc
          simpa [contents] using hcd
        have hnb : h.nb < heap_max_size := by
          have h0 := hp.1
          simp only [heap_max_size] at hcap ⊢
          omega
        obtain ⟨h2, hadd, hp2, hc2⟩ := heap_add_spec hp hnb
        have hrun : run (.add v :: ops) h = run ops h2 := by
          simp only [run]
          rw [hadd, Option.some_bind]
        rw [hrun]
        have hc2' : contents h2 = ((v :: acc : List Int) : Multiset Int) := by
          rw [hc2, hc, Multiset.cons_coe]
        exact ih h2 (v :: acc) acc' hp2 hc2' hl
      · rw [if_neg hcap] at hl
        exact Option.noConfusion hl
    | remove =>
      simp only [ledger] at hl
      cases hmax : acc.max? with
      | none =>
        rw [hmax] at hl
        exact Option.noConfusion hl
      | some mx =>
        rw [hmax] at hl
        obtain ⟨hmem, hle⟩ := max_spec hmax
        have hcard : h.nb.toNat = acc.length := by
          have hcd := congrArg Multiset.card hc
          simpa [contents] using hcd
        have hnb : 0 < h.nb := by
          have h0 := hp.1
          have hlp : 0 < acc.length := List.length_pos_of_mem hmem
          omega
        have hroot_mem : h.arr 0 ∈ (acc : Multiset Int) := by
          rw [← hc]
          exact mem_ms le_rfl (by omega)
        have hroot_le : h.arr 0 ≤ mx := hle _ (Multiset.mem_coe.mp hroot_mem)
        have hmx_le : mx ≤ h.arr 0 := by
          refine mem_le_root ⟨hp.1, hp.2.1, hp.2.2⟩ ?_
          rw [hc]
          exact Multiset.mem_coe.mpr hmem
        have hmx : h.arr 0 = mx := le_antisymm hroot_le hmx_le
        obtain ⟨hp2, hc2⟩ := heap_remove_spec hp hnb
        have hrun : run (.remove :: ops) h = run ops (heap_remove h) := by
          simp only [run, if_pos hnb]
        rw [hrun]
        refine ih (heap_remove h) (acc.erase mx) acc' hp2 ?_ hl
        rw [hc2, hmx, hc]
        exact Multiset.coe_erase acc mx

theorem heap_prop_create : heap_prop heap_create := by
  refine ⟨le_refl 0, ?_, ?_⟩
  · show (0 : Int) ≤ heap_max_size
    simp [heap_max_size]
  · intro k hk0 hkn
    have hk : k < (0 : Int) := hkn
    exact absurd hk (by omega)

theorem peek_root {h : HeapS} (hnb : h.nb ≠ 0) : heap_peek h = some (h.arr 0) := by
  rw [heap_peek, if_neg]
  simp [heap_empty, hnb]

theorem root_eq_max {h : HeapS} {acc : List Int} {mx : Int} (hp : heap_prop h)
    (hc : contents h = (acc : Multiset Int)) (hmx : acc.max? = some mx) (hnb : h.nb ≠ 0) :
    h.arr 0 = mx := by
  obtain ⟨hmem, hle⟩ := max_spec hmx
  have h1 := hp.1
  have h0m : h.arr 0 ∈ contents h := mem_ms le_rfl (by omega)
  refine le_antisymm ?_ ?_
  · rw [hc] at h0m
    exact hle _ (Multiset.mem_coe.mp h0m)
  · refine mem_le_root hp ?_
    rw [hc]
    exact Multiset.mem_coe.mpr hmem

theorem contents_card {h : HeapS} {acc : List Int}
    (hc : contents h = (acc : Multiset Int)) : h.nb.toNat = acc.length := by
  have hcd := congrArg Multiset.card hc
  simpa [contents] using hcd

end Heap

/-- C7: for every in-range driver sequence the peek of the resulting non-empty heap
is the maximum of the elements added and not yet removed; concretely, after adding
4, 5, 6, 6, 7 peek returns 7, and after one further remove peek returns 6. -/
theorem claim_C7 :
    (∀ (ops : List Heap.HOp) (acc : List Int) (hh : Heap.HeapS),
        Heap.run ops Heap.heap_create = some hh → Heap.ledger ops [] = some acc →
        Heap.heap_empty hh = false →
        ∃ mx : Int, Heap.heap_peek hh = some mx ∧ mx ∈ acc ∧ ∀ x ∈ acc, x ≤ mx) ∧
    (∃ h5 h6 : Heap.HeapS,
        Heap.run [.add 4, .add 5, .add 6, .add 6, .add 7] Heap.heap_create = some h5 ∧
        Heap.heap_peek h5 = some 7 ∧
        Heap.run [.remove] h5 = some h6 ∧
        Heap.heap_peek h6 = some 6) := by
  constructor
  · intro ops acc hh hrun hled hne
    obtain ⟨h', hrun', hp', hc'⟩ := Heap.run_ledger ops Heap.heap_create [] acc
      Heap.heap_prop_create rfl hled
    rw [hrun] at hrun'
    injection hrun' with he
    rw [← he] at hp' hc'
    have hnb : hh.nb ≠ 0 := by
      simp [Heap.heap_empty] at hne
      exact hne
    have h1 := hp'.1
    refine ⟨hh.arr 0, Heap.peek_root hnb, ?_, ?_⟩
    · have h0m : hh.arr 0 ∈ Heap.contents hh := Heap.mem_ms le_rfl (by omega)
      rw [hc'] at h0m
      exact Multiset.mem_coe.mp h0m
    · intro x hx
      refine Heap.mem_le_root hp' ?_
      rw [hc']
      exact Multiset.mem_coe.mpr hx
  · have hled5 : Heap.ledger [.add 4, .add 5, .add 6, .add 6, .add 7] [] =
        some [7, 6, 6, 5, 4] := by rfl
    obtain ⟨h5, hrun5, hp5, hc5⟩ := Heap.run_ledger [.add 4, .add 5, .add 6, .add 6, .add 7]
      Heap.heap_create [] [7, 6, 6, 5, 4] Heap.heap_prop_create rfl hled5
    have hcard5 := Heap.contents_card hc5
    have h15 := hp5.1
    have hnb5 : h5.nb = 5 := by
      simp at hcard5
      omega
    have h7 : h5.arr 0 = 7 := Heap.root_eq_max hp5 hc5 (by rfl) (by omega)
    have hled1 : Heap.ledger [.remove] [7, 6, 6, 5, 4] = some [6, 6, 5, 4] := by rfl
    obtain ⟨h6, hrun6, hp6, hc6⟩ := Heap.run_ledger [.remove] h5 [7, 6, 6, 5, 4] [6, 6, 5, 4]
      hp5 hc5 hled1
    have hcard6 := Heap.contents_card hc6
    have h16 := hp6.1
    have hnb6 : h6.nb = 4 := by
      simp at hcard6
      omega
    have h6v : h6.arr 0 = 6 := Heap.root_eq_max hp6 hc6 (by rfl) (by omega)
    refine ⟨h5, h6, hrun5, ?_, hrun6, ?_⟩
    · rw [Heap.peek_root (by omega), h7]
    · rw [Heap.peek_root (by omega), h6v]

/-- Witness for C7 at a concrete input: the single operation "add 4" runs to the
one-element heap, whose peek is its maximum 4. -/
theorem claim_C7_witness :
    ∃ mx : Int,
      Heap.heap_peek { arr := Heap.upd (fun _ => 0) 0 4, nb := 1 } = some mx ∧
      mx ∈ [(4 : Int)] ∧ ∀ x ∈ [(4 : Int)], x ≤ mx := by
  have h1 : Heap.sift_up (Heap.upd (fun _ => (0 : Int)) 0 4) 0 =
      Heap.upd (fun _ => (0 : Int)) 0 4 := by
    rw [Heap.sift_up]
    exact dif_neg (fun hc => absurd hc.1 (lt_irrefl 0))
  refine claim_C7.1 [.add 4] [(4 : Int)] { arr := Heap.upd (fun _ => 0) 0 4, nb := 1 }
    ?_ (by rfl) (by rfl)
  show (Heap.heap_add 4 Heap.heap_create).bind (Heap.run []) =
    some { arr := Heap.upd (fun _ => 0) 0 4, nb := 1 }
  norm_num [Heap.heap_add, Heap.heap_create, Heap.heap_max_size, Heap.run, h1]

